import Mathlib

/-!
# goKuka: chunking, time accounting, table parsing and circle generation

A shallow embedding of `goKuka.go` and theorems about it.

* Go `int` is the 64-bit two's-complement integer.  Arithmetic on the value of
  the `-m` flag and on the counter `*index` of `circle` goes through
  `wrapInt64`.  The record counter `currentRec` of `parsePoints` starts at 1
  and counts points that are held in memory; it cannot reach `2^63` and is a
  plain integer.
* Go `float64` is `Float64` below: a rational, the two infinities, or NaN.
  Arithmetic rounds to the nearest binary64 value (53-bit significand, ties to
  even) through `roundF64`.  For the operators `+ - * /` the exponent range is
  not bounded (no overflow to infinity, no subnormals); the value of a parsed
  text is rounded through `roundBinary64`, with subnormals, and overflows to
  an infinity.  The sign of a zero is not tracked.
* A Go slice is a window on a backing array: `Slice` keeps the visible
  elements and the rest of the backing array up to the capacity, because a
  slice expression `s[lo:hi]` is checked against `cap(s)`, not `len(s)`.
* A run-time panic is `none` (or `completed = false` for the chunking loop).
* Library functions (`strconv.ParseFloat`, `strings.TrimSpace`,
  `math.Sincos`, `rand.Intn`, the csv reader) are parameters of the functions
  that call them; `strconvParseFloat` and `stringsTrimSpace` are models of
  the first two, for concrete evaluation.
-/

namespace GoKuka

/-! ## Go integers -/

/-- Two's-complement wrap-around of a mathematical integer into the range of a
64-bit Go `int`. -/
def wrapInt64 (z : Int) : Int := (z + 2 ^ 63) % 2 ^ 64 - 2 ^ 63

/-! ## Go float64 -/

/-- Values of a Go `float64`. -/
inductive Float64 where
  | fin (q : ℚ)
  | posInf
  | negInf
  | nan
  deriving DecidableEq

instance : Zero Float64 := ⟨Float64.fin 0⟩

instance : Inhabited Float64 := ⟨Float64.fin 0⟩

/-- Round a non-negative rational to the nearest integer, ties to the even
neighbour. -/
def roundHalfEven (m : ℚ) : Int :=
  let f := ⌊m⌋
  let r := m - f
  if r < 1 / 2 then f
  else if 1 / 2 < r then f + 1
  else if f % 2 = 0 then f else f + 1

/-- Round a rational to the nearest number with a 53-bit significand, ties to
even: the rounding every binary64 operation applies to its exact result. -/
def roundF64 (x : ℚ) : ℚ :=
  if x = 0 then 0
  else
    let e : Int := Int.log 2 |x|
    let ulp : ℚ := (2 : ℚ) ^ (e - 52)
    (SignType.sign x : ℚ) * roundHalfEven (|x| / ulp) * ulp

namespace Float64

/-- Conversion `float64(n)` of a Go `int`. -/
def ofInt (n : Int) : Float64 := fin (roundF64 n)

/-- Division `x / y` of two `float64` values (the divisor zero is `+0`). -/
def div : Float64 → Float64 → Float64
  | nan, _ => nan
  | _, nan => nan
  | fin a, fin b =>
    if b = 0 then (if a = 0 then nan else if 0 < a then posInf else negInf)
    else fin (roundF64 (a / b))
  | fin _, posInf => fin 0
  | fin _, negInf => fin 0
  | posInf, fin b => if 0 ≤ b then posInf else negInf
  | negInf, fin b => if 0 ≤ b then negInf else posInf
  | posInf, posInf => nan
  | posInf, negInf => nan
  | negInf, posInf => nan
  | negInf, negInf => nan

/-- Subtraction `x - y` of two `float64` values. -/
def sub : Float64 → Float64 → Float64
  | nan, _ => nan
  | _, nan => nan
  | fin a, fin b => fin (roundF64 (a - b))
  | fin _, posInf => negInf
  | fin _, negInf => posInf
  | posInf, fin _ => posInf
  | negInf, fin _ => negInf
  | posInf, posInf => nan
  | posInf, negInf => posInf
  | negInf, posInf => negInf
  | negInf, negInf => nan

/-- Addition `x + y` of two `float64` values. -/
def add : Float64 → Float64 → Float64
  | nan, _ => nan
  | _, nan => nan
  | fin a, fin b => fin (roundF64 (a + b))
  | fin _, posInf => posInf
  | fin _, negInf => negInf
  | posInf, fin _ => posInf
  | negInf, fin _ => negInf
  | posInf, posInf => posInf
  | posInf, negInf => nan
  | negInf, posInf => nan
  | negInf, negInf => negInf

/-- Multiplication `x * y` of two `float64` values. -/
def mul : Float64 → Float64 → Float64
  | nan, _ => nan
  | _, nan => nan
  | fin a, fin b => fin (roundF64 (a * b))
  | fin a, posInf => if a = 0 then nan else if 0 < a then posInf else negInf
  | fin a, negInf => if a = 0 then nan else if 0 < a then negInf else posInf
  | posInf, fin b => if b = 0 then nan else if 0 < b then posInf else negInf
  | negInf, fin b => if b = 0 then nan else if 0 < b then negInf else posInf
  | posInf, posInf => posInf
  | posInf, negInf => negInf
  | negInf, posInf => negInf
  | negInf, negInf => posInf

instance : Sub Float64 := ⟨sub⟩

instance : Add Float64 := ⟨add⟩

instance : Mul Float64 := ⟨mul⟩

/-- The comparison `x < y` of two `float64` values (false when either is
NaN). -/
def lt : Float64 → Float64 → Bool
  | fin a, fin b => decide (a < b)
  | fin _, posInf => true
  | negInf, fin _ => true
  | negInf, posInf => true
  | _, _ => false

/-- The comparison `x <= y` of two `float64` values (false when either is
NaN). -/
def le : Float64 → Float64 → Bool
  | fin a, fin b => decide (a ≤ b)
  | fin _, posInf => true
  | negInf, fin _ => true
  | negInf, posInf => true
  | posInf, posInf => true
  | negInf, negInf => true
  | _, _ => false

/-- The value is a finite number, neither an infinity nor NaN. -/
def isFinite : Float64 → Bool
  | fin _ => true
  | _ => false

/-- The value is one a `float64` can hold: a finite one has a 53-bit
significand. -/
def IsValue : Float64 → Prop
  | fin q => roundF64 q = q
  | _ => True

/-- The function `math.Ceil`. -/
def ceil : Float64 → Float64
  | fin q => fin (⌈q⌉ : Int)
  | x => x

/-- Conversion `int(x)` of a `float64`: truncation toward zero.  When the
value is NaN, infinite or outside the range of `int`, the Go specification
leaves the result to the implementation; it is the parameter `indefinite`
(`-2^63` on amd64, where the instruction returns the "integer indefinite"
value; `0` for NaN on arm64). -/
def toInt (indefinite : Int) : Float64 → Int
  | fin q =>
    let t : Int := if 0 ≤ q then ⌊q⌋ else ⌈q⌉
    if -2 ^ 63 ≤ t ∧ t < 2 ^ 63 then t else indefinite
  | _ => indefinite

end Float64

/-! ## Data model -/

/-- The record `E6Pos`. -/
structure E6Pos where
  Index : Int := 0
  TimeCode : Float64 := 0
  TimeMark : Float64 := 0
  X : Float64 := 0
  Y : Float64 := 0
  Z : Float64 := 0
  A : Float64 := 0
  B : Float64 := 0
  C : Float64 := 0
  S : Int := 0
  T : Int := 0
  E1 : Float64 := 0
  E2 : Float64 := 0
  E3 : Float64 := 0
  E4 : Float64 := 0
  E5 : Float64 := 0
  E6 : Float64 := 0
  deriving DecidableEq

/-- The record `point`: a simple three-dimensional point. -/
structure point where
  P1 : Float64
  P2 : Float64
  P3 : Float64

/-- The record `Data` handed to the template. -/
structure Data where
  Total : Int
  TotalTime : Float64
  Points : List E6Pos

/-! ## Go slices -/

/-- A Go slice: `elems` are the `len` visible elements, `spare` is the rest of
the backing array, so that `cap = len + spare.length`. -/
structure Slice (α : Type) where
  elems : List α
  spare : List α := []

namespace Slice

variable {α : Type}

/-- The built-in `len(s)`. -/
def len (s : Slice α) : Int := s.elems.length

/-- The built-in `cap(s)`. -/
def cap (s : Slice α) : Int := s.elems.length + s.spare.length

/-- The slice expression `s[lo:hi]`: it panics unless
`0 <= lo <= hi <= cap(s)`. -/
def slice (s : Slice α) (lo hi : Int) : Option (Slice α) :=
  if 0 ≤ lo ∧ lo ≤ hi ∧ hi ≤ s.cap then
    some
      { elems := ((s.elems ++ s.spare).drop lo.toNat).take (hi - lo).toNat
        spare := (s.elems ++ s.spare).drop hi.toNat }
  else none

/-- The slice expression `s[lo:]`, that is `s[lo:len(s)]`: it panics unless
`0 <= lo <= len(s)`. -/
def sliceFrom (s : Slice α) (lo : Int) : Option (Slice α) :=
  if 0 ≤ lo ∧ lo ≤ s.len then
    some { elems := s.elems.drop lo.toNat, spare := s.spare }
  else none

end Slice

/-! ## Library models: strings.TrimSpace and strconv.ParseFloat -/

/-- The predicate `unicode.IsSpace`. -/
def isSpace (c : Char) : Bool :=
  let n := c.toNat
  n = 9 || n = 10 || n = 11 || n = 12 || n = 13 || n = 32 || n = 0x85 || n = 0xA0
    || n = 0x1680 || (0x2000 ≤ n && n ≤ 0x200A) || n = 0x2028 || n = 0x2029
    || n = 0x202F || n = 0x205F || n = 0x3000

/-- The function `strings.TrimSpace`: the string without its leading and
trailing white space. -/
def stringsTrimSpace (s : String) : String :=
  String.mk (((s.toList.dropWhile isSpace).reverse.dropWhile isSpace).reverse)

/-- A hexadecimal letter, `a..f` or `A..F`. -/
def isHexLetter (c : Char) : Bool :=
  (97 ≤ c.toNat && c.toNat ≤ 102) || (65 ≤ c.toNat && c.toNat ≤ 70)

/-- The value of a hexadecimal letter. -/
def hexLetterVal (c : Char) : Nat := c.toLower.toNat - 97 + 10

/-- An optional sign in front of a number: whether it is `-`, and the rest. -/
def readSign : List Char → Bool × List Char
  | '+' :: r => (false, r)
  | '-' :: r => (true, r)
  | s => (false, s)

/-- The state of the digit loop of `readFloat`: whether a point and a digit
have been seen, the digits read so far as one integer, the number of digits
after the point, and whether an underscore has been skipped. -/
structure MantState where
  sawdot : Bool := false
  sawdigits : Bool := false
  mant : Nat := 0
  frac : Nat := 0
  underscores : Bool := false

/-- The digit loop of `readFloat`, in base 16 when `hex` and in base 10
otherwise: it skips underscores, accepts one point, and stops at the first
other character. -/
def readMantissa (hex : Bool) : List Char → MantState → MantState × List Char
  | [], st => (st, [])
  | c :: cs, st =>
    if c = '_' then readMantissa hex cs { st with underscores := true }
    else if c = '.' then
      if st.sawdot then (st, c :: cs)
      else readMantissa hex cs { st with sawdot := true }
    else if c.isDigit then
      readMantissa hex cs
        { st with
          sawdigits := true
          mant := (if hex then 16 else 10) * st.mant + (c.toNat - 48)
          frac := if st.sawdot then st.frac + 1 else st.frac }
    else if hex && isHexLetter c then
      readMantissa hex cs
        { st with
          sawdigits := true
          mant := 16 * st.mant + hexLetterVal c
          frac := if st.sawdot then st.frac + 1 else st.frac }
    else (st, c :: cs)

/-- The exponent loop of `readFloat`: decimal digits and underscores; the
exponent stops growing once it has reached 10000. -/
def readExpDigits : List Char → Nat → Bool → Nat × Bool × List Char
  | [], e, underscores => (e, underscores, [])
  | c :: cs, e, underscores =>
    if c.isDigit then
      readExpDigits cs (if e < 10000 then e * 10 + (c.toNat - 48) else e) underscores
    else if c = '_' then readExpDigits cs e true
    else (e, underscores, c :: cs)

/-- The last character seen by `underscoreOK`. -/
inductive Saw where
  | start
  | digit
  | underscore
  | other
  deriving DecidableEq

/-- The loop of `underscoreOK` over the number proper. -/
def underscoreLoop (hex : Bool) : List Char → Saw → Bool
  | [], saw => decide (saw ≠ Saw.underscore)
  | c :: cs, saw =>
    if c.isDigit || (hex && isHexLetter c) then underscoreLoop hex cs Saw.digit
    else if c = '_' then
      if saw ≠ Saw.digit then false else underscoreLoop hex cs Saw.underscore
    else if saw = Saw.underscore then false
    else underscoreLoop hex cs Saw.other

/-- The function `underscoreOK` of `strconv`: an underscore may stand only
between two digits, or between a base prefix and a digit. -/
def underscoreOK (s : List Char) : Bool :=
  let s1 := (readSign s).2
  match s1 with
  | '0' :: x :: r =>
    if x = 'b' ∨ x = 'B' ∨ x = 'o' ∨ x = 'O' ∨ x = 'x' ∨ x = 'X' then
      underscoreLoop (decide (x = 'x' ∨ x = 'X')) r Saw.digit
    else underscoreLoop false s1 Saw.start
  | _ => underscoreLoop false s1 Saw.start

/-- The exponent part of a literal, after the exponent character: an optional
sign and at least one digit, up to the end of the text.  The result is the
signed exponent and whether an underscore was skipped. -/
def readExponent (r : List Char) (underscores : Bool) : Option (Int × Bool) :=
  let (eneg, r1) := readSign r
  match r1 with
  | [] => none
  | d :: _ =>
    if d.isDigit then
      let (ev, u, r2) := readExpDigits r1 0 underscores
      if r2 ≠ [] then none
      else some ((if eneg then -(ev : Int) else (ev : Int)), u)
    else none

/-- The syntax `strconv.ParseFloat` accepts for a number (function
`readFloat`, applied to the whole text): sign; decimal digits with an optional
point and an optional exponent `e`, or the prefix `0x`, hexadecimal digits
with an optional point and a mandatory binary exponent `p`; underscores as
`underscoreOK` allows.  The result is the sign, whether the literal is
hexadecimal, the digits as one integer `mant`, and the exponent `e`, for the
value `mant * 10^e` (decimal) or `mant * 2^e` (hexadecimal); `none` is a
syntax error. -/
def readFloat (s : List Char) : Option (Bool × Bool × Nat × Int) :=
  let (neg, s1) := readSign s
  let (hex, s2) :=
    match s1 with
    | '0' :: x :: c :: r => if x = 'x' ∨ x = 'X' then (true, c :: r) else (false, s1)
    | _ => (false, s1)
  let (st, s3) := readMantissa hex s2 {}
  if st.sawdigits = false then none
  else
    let scale : Int := if hex then 4 * (st.frac : Int) else (st.frac : Int)
    match s3 with
    | [] =>
      if hex then none
      else if st.underscores && !underscoreOK s then none
      else some (neg, false, st.mant, -scale)
    | c :: r =>
      if (hex && (c = 'p' || c = 'P')) || (!hex && (c = 'e' || c = 'E')) then
        match readExponent r st.underscores with
        | none => none
        | some (e, u) =>
          if u && !underscoreOK s then none
          else some (neg, hex, st.mant, e - scale)
      else none

/-- The spellings of infinity and NaN that `strconv.ParseFloat` accepts,
whatever the case of the letters. -/
def readSpecial (s : List Char) : Option Float64 :=
  let (neg, r) := readSign s
  let low := r.map Char.toLower
  match s with
  | [] => none
  | c :: _ =>
    if c = '+' ∨ c = '-' ∨ c = 'i' ∨ c = 'I' then
      if low = "inf".toList ∨ low = "infinity".toList then
        some (if neg then Float64.negInf else Float64.posInf)
      else none
    else if s.map Char.toLower = "nan".toList then some Float64.nan
    else none

/-- Round a rational to the nearest `float64` number, ties to even, with the
subnormal numbers below `2^-1022` (multiples of `2^-1074`). -/
def roundBinary64 (x : ℚ) : ℚ :=
  if |x| < 1 / 2 ^ 1022 then
    (SignType.sign x : ℚ) * roundHalfEven (|x| * 2 ^ 1074) / 2 ^ 1074
  else roundF64 x

/-- The function `strconv.ParseFloat(s, 64)`, from its source and
documentation: the value, and whether the error is non-nil.  A text that is
not a number gives `0` and a syntax error; a number is rounded to the nearest
`float64`, and one too large for a `float64` gives an infinity and a range
error. -/
def strconvParseFloat (s : String) : Float64 × Bool :=
  match readSpecial s.toList with
  | some f => (f, false)
  | none =>
    match readFloat s.toList with
    | none => (Float64.fin 0, true)
    | some (neg, hex, mant, e) =>
      let v : ℚ := roundBinary64 ((mant : ℚ) * (if hex then (2 : ℚ) else (10 : ℚ)) ^ e)
      if (2 : ℚ) ^ (1024 : ℕ) ≤ v then
        ((if neg then Float64.negInf else Float64.posInf), true)
      else (Float64.fin (if neg then -v else v), false)

/-! ## parsePoints -/

/-- The body of the loop of `parsePoints`: the point built from one record,
`currentRec` being the running record number.  A record with fewer than 8
fields makes an index expression `record[k]` panic. -/
def recordPoint (parseFloat : String → Float64 × Bool) (trimSpace : String → String)
    (currentRec : Int) (record : List String) : Option E6Pos :=
  match record[0]?, record[1]?, record[2]?, record[3]?, record[4]?, record[5]?,
    record[6]?, record[7]? with
  | some f0, some f1, some f2, some f3, some f4, some f5, some f6, some f7 =>
    some
      { Index := currentRec
        TimeCode := (parseFloat (trimSpace f0)).1
        X := (parseFloat (trimSpace f1)).1
        Y := (parseFloat (trimSpace f2)).1
        Z := (parseFloat (trimSpace f3)).1
        A := (parseFloat (trimSpace f4)).1
        B := (parseFloat (trimSpace f5)).1
        C := (parseFloat (trimSpace f6)).1
        TimeMark := (parseFloat (trimSpace f7)).1
        S := 6
        T := 19 }
  | _, _, _, _, _, _, _, _ => none

/-- The loop of `parsePoints`: `records` are the records the csv reader
returns before the end of the file. -/
def parsePointsLoop (parseFloat : String → Float64 × Bool) (trimSpace : String → String) :
    List (List String) → Int → List E6Pos → Option (List E6Pos)
  | [], _, points => some points
  | record :: rest, currentRec, points =>
    match recordPoint parseFloat trimSpace currentRec record with
    | none => none
    | some p => parsePointsLoop parseFloat trimSpace rest (currentRec + 1) (points ++ [p])

/-- The function `parsePoints`: the points appended to `points`, or `none`
when a record makes it panic. -/
def parsePoints (parseFloat : String → Float64 × Bool) (trimSpace : String → String)
    (records : List (List String)) (points : List E6Pos) : Option (List E6Pos) :=
  parsePointsLoop parseFloat trimSpace records 1 points

/-- The member of a point that `parsePoints` fills from the table column `i`:
`TimeCode, X, Y, Z, A, B, C, TimeMark` for the columns 0 to 7. -/
def E6Pos.column (p : E6Pos) : Nat → Float64
  | 0 => p.TimeCode
  | 1 => p.X
  | 2 => p.Y
  | 3 => p.Z
  | 4 => p.A
  | 5 => p.B
  | 6 => p.C
  | _ => p.TimeMark

/-! ## writeTemplate: the derived values -/

/-- The first statement of `writeTemplate`: building `outData` reads
`posData[len(posData)-1]`, which panics on an empty chunk. -/
def newData (posData : List E6Pos) : Option Data :=
  match posData.getLast? with
  | none => none
  | some last =>
    some { Total := posData.length, TotalTime := last.TimeCode, Points := posData }

/-- The template function `last`: `i % outData.Total == 0`.  The remainder is
Go's, truncated toward zero; a zero divisor panics. -/
def last (outData : Data) (i : Int) : Option Bool :=
  if outData.Total = 0 then none else some (decide (Int.tmod i outData.Total = 0))

/-- The template function `first`: `i % outData.Total == 1`. -/
def first (outData : Data) (i : Int) : Option Bool :=
  if outData.Total = 0 then none else some (decide (Int.tmod i outData.Total = 1))

/-- The template function `firstIndex`: `posData[0].Index`. -/
def firstIndex (posData : List E6Pos) : Option Int :=
  match posData[0]? with
  | none => none
  | some p => some p.Index

/-! ## calcRemainTime -/

/-- The loop `for i := len(posData) - 1; i > 0; i--` of `calcRemainTime`: the
first argument is the loop variable `i`, the second is `prevPartTime`. -/
def calcRemainLoop (posData : List E6Pos) : Nat → Float64 → Option Float64
  | 0, prevPartTime => some prevPartTime
  | i + 1, _ =>
    match posData[i + 1]? with
    | none => none
    | some p =>
      if p.TimeMark ≠ 0 then some p.TimeCode
      else calcRemainLoop posData i p.TimeCode

/-- The function `calcRemainTime`; `none` is the panic of
`posData[len(posData)-1]` on an empty chunk. -/
def calcRemainTime (posData : List E6Pos) : Option Float64 :=
  match calcRemainLoop posData (posData.length - 1) 0 with
  | none => none
  | some prevPartTime =>
    match posData.getLast? with
    | none => none
    | some lastPoint => some (lastPoint.TimeCode - prevPartTime)

/-! ## circle, repeatCircle, randomCircle -/

/-- The constant `2*math.Pi` as a `float64`: the binary64 number nearest to
2π, `0x401921FB54442D18`. -/
def twoPi : Float64 := Float64.fin (884279719003555 / 2 ^ 47)

/-- The constant `angleStep := 0.1` as a `float64`. -/
def angleStep : Float64 := Float64.fin (roundF64 (1 / 10))

/-- The point `circlePoint` one iteration of the loop of `circle` builds, from
the incremented counter `index` and the angle of the iteration. -/
def circlePoint (sincos : Float64 → Float64 × Float64) (radius : Float64)
    (center abcAngles : point) (index : Int) (angle : Float64) : E6Pos :=
  let y := ((sincos angle).1 * radius) + center.P2
  let z := ((sincos angle).2 * radius) + center.P3
  let x := center.P1
  { Index := index, X := x, Y := y, Z := z
    A := abcAngles.P1, B := abcAngles.P2, C := abcAngles.P3
    S := 2, T := 43
    E1 := Float64.fin 0, E2 := Float64.fin 0, E3 := Float64.fin 0
    E4 := Float64.fin 0, E5 := Float64.fin 0, E6 := Float64.fin 0 }

/-- The loop `for angle < 2*math.Pi` of `circle`, with `fuel` bounding the
number of iterations; `none` is running out of fuel.  The result is the
points and the final value of `*index`. -/
def circleLoop (sincos : Float64 → Float64 × Float64) (radius : Float64)
    (center abcAngles : point) : Nat → Float64 → Int → List E6Pos → Option (List E6Pos × Int)
  | 0, angle, index, points =>
    if Float64.lt angle twoPi then none else some (points, index)
  | fuel + 1, angle, index, points =>
    if Float64.lt angle twoPi then
      circleLoop sincos radius center abcAngles fuel (angle + angleStep) (wrapInt64 (index + 1))
        (points ++ [circlePoint sincos radius center abcAngles (wrapInt64 (index + 1)) angle])
    else some (points, index)

/-- The function `circle`: the points and the updated counter `*index`. -/
def circle (fuel : Nat) (sincos : Float64 → Float64 × Float64) (radius : Float64)
    (center abcAngles : point) (index : Int) : Option (List E6Pos × Int) :=
  circleLoop sincos radius center abcAngles fuel (Float64.fin 0) index []

/-- The loop `for i := 0; i < numOfCircles; i++` of `repeatCircle`, appending
`points` to `totalPoints` once per iteration. -/
def repeatLoop (points : List E6Pos) : Nat → List E6Pos → List E6Pos
  | 0, totalPoints => totalPoints
  | n + 1, totalPoints => repeatLoop points n (totalPoints ++ points)

/-- The function `repeatCircle`: the trajectory `totalPoints` handed to the
`.src` rendering; `none` when a `writeTemplate` call panics. -/
def repeatCircle (fuel : Nat) (sincos : Float64 → Float64 × Float64) (numOfCircles : Int) :
    Option (List E6Pos) :=
  match circle fuel sincos (Float64.fin 100)
      ⟨Float64.fin 700, Float64.fin 0, Float64.fin 600⟩
      ⟨Float64.fin 90, Float64.fin 0, Float64.fin (-180)⟩ 0 with
  | none => none
  | some (points, _) =>
    match newData points with
    | none => none
    | some _ =>
      let totalPoints := repeatLoop points numOfCircles.toNat []
      match newData totalPoints with
      | none => none
      | some _ => some totalPoints

/-- The loop of `randomCircle`: each element of `draws` holds the four
results of `rand.Intn` of one iteration (for `x`, `z`, `a` and `radius`). -/
def randomCircleLoop (fuel : Nat) (sincos : Float64 → Float64 × Float64) :
    List (Int × Int × Int × Int) → Int → List E6Pos → Option (List E6Pos × Int)
  | [], pointIndex, points => some (points, pointIndex)
  | (rx, rz, ra, rr) :: rest, pointIndex, points =>
    let xyzOffset : point := ⟨Float64.ofInt (rx + 550), Float64.fin 0, Float64.ofInt (rz + 450)⟩
    let abcAngles : point := ⟨Float64.ofInt (ra + 45), Float64.fin 0, Float64.fin (-180)⟩
    let radius := Float64.ofInt (rr + 30)
    match circle fuel sincos radius xyzOffset abcAngles pointIndex with
    | none => none
    | some (p, pointIndex1) => randomCircleLoop fuel sincos rest pointIndex1 (points ++ p)

/-- The function `randomCircle`: the trajectory handed to both renderings;
`none` when `writeTemplate` panics. -/
def randomCircle (fuel : Nat) (sincos : Float64 → Float64 × Float64)
    (draws : List (Int × Int × Int × Int)) : Option (List E6Pos) :=
  match randomCircleLoop fuel sincos draws 0 [] with
  | none => none
  | some (points, _) =>
    match newData points with
    | none => none
    | some _ => some points

/-! ## splineFile: the chunking loop -/

/-- The outcome of the chunking loop: the chunks handed to `writeTemplate`, in
order (each is rendered twice, as `.dat` and as `.src`), and whether the loop
ran to its end (`false`: a run-time panic stopped it). -/
structure Run where
  calls : List (List E6Pos)
  completed : Bool
  deriving DecidableEq

/-- The chunk `outPoints` of iteration `i` of the loop of `splineFile`. -/
def chunkAt (points : Slice E6Pos) (maxPoints i : Int) : Option (Slice E6Pos) :=
  let startIndex := wrapInt64 (i * maxPoints)
  let endIndex := wrapInt64 (startIndex + maxPoints)
  match points.slice startIndex endIndex with
  | none => none
  | some outPoints =>
    if endIndex ≥ points.len then points.sliceFrom startIndex
    else some outPoints

/-- The loop `for i := 0; i < int(numFiles); i++` of `splineFile`, with
`remaining` iterations left to run from the counter value `i`. -/
def chunkLoop (points : Slice E6Pos) (maxPoints : Int) : Nat → Int → Run
  | 0, _ => { calls := [], completed := true }
  | remaining + 1, i =>
    match chunkAt points maxPoints i with
    | none => { calls := [], completed := false }
    | some outPoints =>
      match newData outPoints.elems with
      | none => { calls := [outPoints.elems], completed := false }
      | some _ =>
        let rest := chunkLoop points maxPoints remaining (wrapInt64 (i + 1))
        { calls := outPoints.elems :: rest.calls, completed := rest.completed }

/-- The number `int(numFiles)` of `splineFile`. -/
def numFiles (indefinite : Int) (points : Slice E6Pos) (maxPoints : Int) : Int :=
  let splitValue := Float64.div (Float64.ofInt points.len) (Float64.ofInt maxPoints)
  Float64.toInt indefinite (Float64.ceil splitValue)

/-- The part of `splineFile` after `parsePoints`: `points` is the parsed
trajectory and `maxFlag` the value of the `-m` flag. -/
def splineFile (indefinite : Int) (points : Slice E6Pos) (maxFlag : Int) : Run :=
  let maxPoints := if maxFlag = 0 then points.len else maxFlag
  chunkLoop points maxPoints (numFiles indefinite points maxPoints).toNat 0

/-- The function `splineFile` from the parsing on: the records of the csv
file are parsed into `points`, whose backing array has the spare room
`spare` after the appends, and the trajectory is chunked.  The result is
`none` when `parsePoints` panics. -/
def splineFileOnTable (indefinite : Int) (parseFloat : String → Float64 × Bool)
    (trimSpace : String → String) (records : List (List String)) (spare : List E6Pos)
    (maxFlag : Int) : Option Run :=
  match parsePoints parseFloat trimSpace records [] with
  | none => none
  | some points => some (splineFile indefinite { elems := points, spare := spare } maxFlag)

/-! ## Reference values and sample inputs -/

/-- The window `[j*m, min((j+1)*m, len))` of a trajectory: the chunk of
ordinal `j` for chunks of `m` points. -/
def window (l : List E6Pos) (m j : ℕ) : List E6Pos := (l.drop (j * m)).take m

/-- A sample trajectory point: the `k`-th row (from 0) of a table whose time
code is the row number. -/
def samplePoint (k : ℕ) : E6Pos :=
  { Index := (k : Int) + 1, TimeCode := Float64.fin k, S := 6, T := 19 }

/-- A sample trajectory of `n` points, with indices `1..n`. -/
def sampleTrajectory (n : ℕ) : List E6Pos := (List.range n).map samplePoint

/-- A point with the given time code and time mark. -/
def timed (timeCode timeMark : ℚ) : E6Pos :=
  { TimeCode := Float64.fin timeCode, TimeMark := Float64.fin timeMark }

/-- The row of the input table used as the running example. -/
def sampleRow : List String :=
  ["1.0", "44.9624", "8.7501", "1119.9937", "9.2796", "0.0", "0.0", "0.0"]

/-- A row of fields of every kind: a text that is not a number, a number too
large for a `float64`, digits separated by an underscore, a hexadecimal
literal, a number that underflows to 0, a negative number too large, a number
between spaces, and zero. -/
def mixedRow : List String :=
  ["abc", "1e999", "1_000", "0x1p-2", "1e-400", "-1e999", " 2.5 ", "0"]

/-- A row whose second field is a number too large for a `float64`. -/
def overflowRow : List String :=
  ["0", "1e999", "0", "0", "0", "0", "0", "0"]

/-- The value of `angle` at the start of iteration `j` of the loop of
`circle`: `0`, then `angle += angleStep` once per iteration. -/
def angleSeq : ℕ → ℚ
  | 0 => 0
  | j + 1 => roundF64 (angleSeq j + roundF64 (1 / 10))

/-- A stand-in for `math.Sincos` in concrete evaluations; the index claims do
not depend on its values. -/
def sampleSincos (_ : Float64) : Float64 × Float64 := (Float64.fin 0, Float64.fin 1)

/-- The value of `*index` after `i` increments `*index++` from the entry
value `k`. -/
def counterAt (k : Int) : ℕ → Int
  | 0 => k
  | i + 1 => wrapInt64 (counterAt k i + 1)

/-- The 63 points one call of `circle` produces when the counter is `k` on
entry: iteration `i` builds the point whose index is the counter after
`i + 1` increments, at the angle `angleSeq i`. -/
def circleTrace (sincos : Float64 → Float64 × Float64) (radius : Float64)
    (center abcAngles : point) (k : Int) : List E6Pos :=
  (List.range' 0 63).map
    (fun (i : ℕ) => circlePoint sincos radius center abcAngles (counterAt k (i + 1))
      (Float64.fin (angleSeq i)))

/-- The run of indices `k + 1, k + 2, ..., k + n`. -/
def indexRun (k : Int) (n : ℕ) : List Int := (List.range n).map (fun (i : ℕ) => k + (i : Int) + 1)

/-! ## Rounding lemmas -/

theorem roundHalfEven_le {m : ℚ} {k : Int} (h : m ≤ k) : roundHalfEven m ≤ k := by
  have hf : (⌊m⌋ : ℚ) ≤ m := Int.floor_le m
  have hfk : ⌊m⌋ ≤ k := by exact_mod_cast hf.trans h
  have hstep : (1 : ℚ) / 2 ≤ m - ⌊m⌋ → ⌊m⌋ + 1 ≤ k := by
    intro hr
    have : (⌊m⌋ : ℚ) < k := by linarith
    have : ⌊m⌋ < k := by exact_mod_cast this
    omega
  unfold roundHalfEven
  simp only
  split_ifs with h1 h2 h3
  · exact hfk
  · exact hstep h2.le
  · exact hfk
  · exact hstep (not_lt.mp h1)

theorem le_roundHalfEven {m : ℚ} {k : Int} (h : (k : ℚ) ≤ m) : k ≤ roundHalfEven m := by
  have hfk : k ≤ ⌊m⌋ := Int.le_floor.mpr h
  unfold roundHalfEven
  simp only
  split_ifs <;> omega

theorem sub_half_le_roundHalfEven (m : ℚ) : m - 1 / 2 ≤ roundHalfEven m := by
  have hlt : m < ⌊m⌋ + 1 := Int.lt_floor_add_one m
  unfold roundHalfEven
  simp only
  split_ifs with h1 h2 h3
  · linarith
  · push_cast; linarith
  · have : m - ⌊m⌋ = 1 / 2 := le_antisymm (not_lt.mp h2) (not_lt.mp h1)
    linarith
  · push_cast; linarith

theorem roundF64_of_pos {x : ℚ} (hx : 0 < x) :
    roundF64 x = roundHalfEven (x / 2 ^ (Int.log 2 x - 52)) * 2 ^ (Int.log 2 x - 52) := by
  unfold roundF64
  rw [if_neg hx.ne']
  simp [abs_of_pos hx, sign_pos hx]

theorem roundF64_neg (x : ℚ) : roundF64 (-x) = -roundF64 x := by
  unfold roundF64
  by_cases hx : x = 0
  · simp [hx]
  · rw [if_neg hx, if_neg (neg_ne_zero.mpr hx)]
    simp [Left.sign_neg]

theorem zpow_log_le {x : ℚ} (hx : 0 < x) : (2 : ℚ) ^ Int.log 2 x ≤ x := by
  have := Int.zpow_log_le_self (b := 2) (by norm_num) hx
  simpa using this

theorem lt_zpow_log_succ (x : ℚ) : x < (2 : ℚ) ^ (Int.log 2 x + 1) := by
  have := Int.lt_zpow_succ_log_self (b := 2) (by norm_num) x
  simpa using this

/-- A multiple of the unit in the last place of `x` above `x` bounds the
rounded value from above. -/
theorem roundF64_le_of_mul_ulp {x : ℚ} (hx : 0 < x) (k : Int)
    (h : x ≤ k * 2 ^ (Int.log 2 x - 52)) : roundF64 x ≤ k * 2 ^ (Int.log 2 x - 52) := by
  have hu : (0 : ℚ) < 2 ^ (Int.log 2 x - 52) := by positivity
  rw [roundF64_of_pos hx]
  have : roundHalfEven (x / 2 ^ (Int.log 2 x - 52)) ≤ k :=
    roundHalfEven_le ((div_le_iff₀ hu).mpr h)
  have : (roundHalfEven (x / 2 ^ (Int.log 2 x - 52)) : ℚ) ≤ k := by exact_mod_cast this
  exact mul_le_mul_of_nonneg_right this hu.le

/-- A multiple of the unit in the last place of `x` below `x` bounds the
rounded value from below. -/
theorem le_roundF64_of_mul_ulp {x : ℚ} (hx : 0 < x) (k : Int)
    (h : (k : ℚ) * 2 ^ (Int.log 2 x - 52) ≤ x) : (k : ℚ) * 2 ^ (Int.log 2 x - 52) ≤ roundF64 x := by
  have hu : (0 : ℚ) < 2 ^ (Int.log 2 x - 52) := by positivity
  rw [roundF64_of_pos hx]
  have : k ≤ roundHalfEven (x / 2 ^ (Int.log 2 x - 52)) :=
    le_roundHalfEven ((le_div_iff₀ hu).mpr h)
  have : (k : ℚ) ≤ roundHalfEven (x / 2 ^ (Int.log 2 x - 52)) := by exact_mod_cast this
  exact mul_le_mul_of_nonneg_right this hu.le

theorem log_lt_of_lt_zpow {x : ℚ} (hx : 0 < x) {t : Int} (h : x < 2 ^ t) : Int.log 2 x < t := by
  have := (Int.lt_zpow_iff_log_lt (b := 2) (by norm_num) hx (x := t)).mp (by simpa using h)
  exact this

theorem dyadic_eq_mul_ulp (c : Int) (s : Nat) (e : Int) (he : e ≤ 52 - s) :
    (c : ℚ) / 2 ^ s = ((c * 2 ^ (52 - (s : Int) - e).toNat : Int) : ℚ) * 2 ^ (e - 52) := by
  have h0 : (0 : Int) ≤ 52 - (s : Int) - e := by omega
  have h2 : ((2 : ℚ) ^ (52 - (s : Int) - e).toNat) = (2 : ℚ) ^ (52 - (s : Int) - e) := by
    rw [← zpow_natCast, Int.toNat_of_nonneg h0]
  push_cast
  rw [h2, mul_assoc, ← zpow_add₀ (by norm_num : (2 : ℚ) ≠ 0)]
  have : 52 - (s : Int) - e + (e - 52) = -(s : Int) := by ring
  rw [this, zpow_neg, zpow_natCast]
  rfl

theorem roundF64_le_dyadic {x : ℚ} (hx : 0 < x) (c : Int) (s : Nat)
    (hlt : x < 2 ^ ((53 : Int) - s)) (h : x ≤ c / 2 ^ s) : roundF64 x ≤ c / 2 ^ s := by
  have he : Int.log 2 x ≤ 52 - s := by
    have := log_lt_of_lt_zpow hx hlt
    omega
  rw [dyadic_eq_mul_ulp c s _ he] at h ⊢
  exact roundF64_le_of_mul_ulp hx _ h

theorem dyadic_le_roundF64 {x : ℚ} (hx : 0 < x) (c : Int) (s : Nat)
    (hlt : x < 2 ^ ((53 : Int) - s)) (h : (c : ℚ) / 2 ^ s ≤ x) : (c : ℚ) / 2 ^ s ≤ roundF64 x := by
  have he : Int.log 2 x ≤ 52 - s := by
    have := log_lt_of_lt_zpow hx hlt
    omega
  rw [dyadic_eq_mul_ulp c s _ he] at h ⊢
  exact le_roundF64_of_mul_ulp hx _ h

theorem zpow_log_le_roundF64 {x : ℚ} (hx : 0 < x) : (2 : ℚ) ^ Int.log 2 x ≤ roundF64 x := by
  have key : (((2 : Int) ^ 52 : Int) : ℚ) * 2 ^ (Int.log 2 x - 52) = 2 ^ Int.log 2 x := by
    have c52 : (((2 : Int) ^ 52 : Int) : ℚ) = (2 : ℚ) ^ (52 : Int) := by norm_num
    rw [c52, ← zpow_add₀ (by norm_num : (2 : ℚ) ≠ 0)]
    congr 1
    ring
  have := le_roundF64_of_mul_ulp hx ((2 : Int) ^ 52) (by rw [key]; exact zpow_log_le hx)
  rwa [key] at this

theorem roundF64_pos {x : ℚ} (hx : 0 < x) : 0 < roundF64 x :=
  lt_of_lt_of_le (by positivity) (zpow_log_le_roundF64 hx)

theorem roundF64_neg_of_neg {x : ℚ} (hx : x < 0) : roundF64 x < 0 := by
  have := roundF64_pos (neg_pos.mpr hx)
  rw [roundF64_neg] at this
  linarith

theorem roundF64_zero : roundF64 0 = 0 := by simp [roundF64]

theorem sub_half_ulp_le_roundF64 {x : ℚ} (hx : 0 < x) :
    x - 2 ^ (Int.log 2 x - 53) ≤ roundF64 x := by
  have hu : (0 : ℚ) < 2 ^ (Int.log 2 x - 52) := by positivity
  have h1 := sub_half_le_roundHalfEven (x / 2 ^ (Int.log 2 x - 52))
  have h2 := mul_le_mul_of_nonneg_right h1 hu.le
  rw [roundF64_of_pos hx]
  have h3 : (2 : ℚ) ^ (Int.log 2 x - 53) = 1 / 2 * 2 ^ (Int.log 2 x - 52) := by
    have : Int.log 2 x - 53 = (Int.log 2 x - 52) + (-1) := by ring
    rw [this, zpow_add₀ (by norm_num : (2 : ℚ) ≠ 0)]
    norm_num
    ring
  rw [h3]
  have h4 : (x / 2 ^ (Int.log 2 x - 52) - 1 / 2) * 2 ^ (Int.log 2 x - 52)
      = x - 1 / 2 * 2 ^ (Int.log 2 x - 52) := by
    field_simp
    ring
  linarith

theorem roundF64_natCast (n : ℕ) (h : n < 2 ^ 53) : roundF64 (n : ℚ) = n := by
  rcases Nat.eq_zero_or_pos n with h0 | hpos
  · simp [h0, roundF64_zero]
  · have hx : (0 : ℚ) < n := by exact_mod_cast hpos
    have hlt : (n : ℚ) < 2 ^ ((53 : Int) - (0 : ℕ)) := by
      have e0 : ((53 : Int) - ((0 : ℕ) : Int)) = ((53 : ℕ) : Int) := by simp
      rw [e0, zpow_natCast]
      exact_mod_cast h
    have e1 := roundF64_le_dyadic hx (n : Int) 0 hlt (by simp)
    have e2 := dyadic_le_roundF64 hx (n : Int) 0 hlt (by simp)
    simp at e1 e2
    exact le_antisymm e1 e2

theorem le_log_of_zpow_le {x : ℚ} (hx : 0 < x) {t : Int} (h : (2 : ℚ) ^ t ≤ x) :
    t ≤ Int.log 2 x :=
  (Int.zpow_le_iff_le_log (b := 2) (by norm_num) hx (x := t)).mp (by simpa using h)

/-- The ceiling of the rounded quotient of a positive integer below `2^53` by
a positive number that is itself exactly representable is the ceiling of the
exact quotient. -/
theorem ceil_roundF64_div_exact (a b : ℕ) (ha : 0 < a) (ha53 : a < 2 ^ 53) (hb : 0 < b) :
    ⌈roundF64 ((a : ℚ) / b)⌉ = ⌈(a : ℚ) / b⌉ := by
  have haq : (0 : ℚ) < a := by exact_mod_cast ha
  have hbq : (0 : ℚ) < b := by exact_mod_cast hb
  have hb1 : (1 : ℚ) ≤ b := by exact_mod_cast hb
  have ha53q : (a : ℚ) < 2 ^ (53 : Int) := by
    rw [show ((53 : Int)) = ((53 : ℕ) : Int) by rfl, zpow_natCast]
    exact_mod_cast ha53
  have hx : (0 : ℚ) < (a : ℚ) / b := div_pos haq hbq
  have hxa : (a : ℚ) / b ≤ a := div_le_self haq.le hb1
  rw [Int.ceil_eq_iff]
  constructor
  · -- the rounded quotient stays above `⌈a/b⌉ - 1`
    have hc : ((⌈(a : ℚ) / b⌉ - 1 : Int) : ℚ) < (a : ℚ) / b := by
      have := Int.ceil_lt_add_one ((a : ℚ) / b)
      push_cast
      linarith
    have hcb : (⌈(a : ℚ) / b⌉ - 1) * (b : Int) < a := by
      have h1 : ((⌈(a : ℚ) / b⌉ - 1 : Int) : ℚ) * b < a := (lt_div_iff₀ hbq).mp hc
      exact_mod_cast h1
    have hcb1 : ((⌈(a : ℚ) / b⌉ - 1 : Int) : ℚ) * b + 1 ≤ a := by
      have : (⌈(a : ℚ) / b⌉ - 1) * (b : Int) + 1 ≤ a := by omega
      exact_mod_cast this
    have hstep : ((⌈(a : ℚ) / b⌉ - 1 : Int) : ℚ) ≤ (a : ℚ) / b - 1 / b := by
      rw [← sub_div, le_div_iff₀ hbq]
      linarith
    have hulp : (2 : ℚ) ^ (Int.log 2 ((a : ℚ) / b) - 53) < 1 / b := by
      have h1 : (2 : ℚ) ^ (Int.log 2 ((a : ℚ) / b) - 53)
          = 2 ^ Int.log 2 ((a : ℚ) / b) / 2 ^ (53 : Int) := by
        rw [zpow_sub₀ (by norm_num : (2 : ℚ) ≠ 0)]
      have h2 : (2 : ℚ) ^ Int.log 2 ((a : ℚ) / b) ≤ (a : ℚ) / b := zpow_log_le hx
      have h53 : (0 : ℚ) < 2 ^ (53 : Int) := by positivity
      rw [h1, div_lt_iff₀ h53]
      calc (2 : ℚ) ^ Int.log 2 ((a : ℚ) / b) ≤ (a : ℚ) / b := h2
        _ < 2 ^ (53 : Int) / b := div_lt_div_of_pos_right ha53q hbq
        _ = 1 / b * 2 ^ (53 : Int) := by ring
    have := sub_half_ulp_le_roundF64 hx
    push_cast at hstep ⊢
    linarith
  · have hlt : (a : ℚ) / b < 2 ^ ((53 : Int) - (0 : ℕ)) := by
      simp only [Nat.cast_zero, sub_zero]
      exact lt_of_le_of_lt hxa ha53q
    have := roundF64_le_dyadic hx ⌈(a : ℚ) / b⌉ 0 hlt (by simpa using Int.le_ceil _)
    simpa using this

/-- Rounding a positive integer of at least `2^53` keeps it at least `2^53`. -/
theorem le_roundF64_of_large {x : ℚ} (h : (2 : ℚ) ^ (53 : Int) ≤ x) :
    (2 : ℚ) ^ (53 : Int) ≤ roundF64 x := by
  have hx : 0 < x := lt_of_lt_of_le (by positivity) h
  have h1 : (53 : Int) ≤ Int.log 2 x := le_log_of_zpow_le hx h
  exact le_trans (zpow_le_zpow_right₀ (by norm_num) h1) (zpow_log_le_roundF64 hx)

/-- Rounding a number of at least `1` keeps it at least `1`. -/
theorem one_le_roundF64 {x : ℚ} (h : 1 ≤ x) : 1 ≤ roundF64 x := by
  have hx : 0 < x := lt_of_lt_of_le (by norm_num) h
  have h1 : (0 : Int) ≤ Int.log 2 x := le_log_of_zpow_le hx (by simpa using h)
  have := le_trans (zpow_le_zpow_right₀ (by norm_num : (1 : ℚ) ≤ 2) h1) (zpow_log_le_roundF64 hx)
  simpa using this

/-- The quotient of a positive integer below `2^53` by a number of at least
`2^53` rounds to a value strictly between 0 and 1. -/
theorem roundF64_div_large (a : ℕ) (ha : 0 < a) (ha53 : a < 2 ^ 53) {y : ℚ}
    (hy : (2 : ℚ) ^ (53 : Int) ≤ y) :
    0 < roundF64 ((a : ℚ) / y) ∧ roundF64 ((a : ℚ) / y) < 1 := by
  have haq : (0 : ℚ) < a := by exact_mod_cast ha
  have h53 : (0 : ℚ) < 2 ^ (53 : Int) := by positivity
  have hy0 : 0 < y := lt_of_lt_of_le h53 hy
  have hx : 0 < (a : ℚ) / y := div_pos haq hy0
  have ha1 : (a : ℚ) ≤ 2 ^ (53 : Int) - 1 := by
    have : a + 1 ≤ 2 ^ 53 := ha53
    have h2 : ((a + 1 : ℕ) : ℚ) ≤ ((2 ^ 53 : ℕ) : ℚ) := by exact_mod_cast this
    rw [show ((53 : Int)) = ((53 : ℕ) : Int) by rfl, zpow_natCast]
    push_cast at h2
    linarith
  have hle : (a : ℚ) / y ≤ (((2 : Int) ^ 53 - 1 : Int) : ℚ) / 2 ^ 53 := by
    have c53 : ((((2 : Int) ^ 53 - 1 : Int)) : ℚ) = (2 : ℚ) ^ (53 : Int) - 1 := by norm_num
    have d53 : ((2 : ℚ) ^ (53 : ℕ)) = (2 : ℚ) ^ (53 : Int) := by norm_num
    rw [c53, d53, div_le_div_iff₀ hy0 h53]
    nlinarith
  have hlt1 : (((2 : Int) ^ 53 - 1 : Int) : ℚ) / 2 ^ 53 < 1 := by norm_num
  have hlt : (a : ℚ) / y < 2 ^ ((53 : Int) - (53 : ℕ)) := by
    simp only [Nat.cast_ofNat, sub_self, zpow_zero]
    exact lt_of_le_of_lt hle hlt1
  exact ⟨roundF64_pos hx, lt_of_le_of_lt (roundF64_le_dyadic hx _ 53 hlt hle) hlt1⟩

/-- The ceiling of the float64 quotient `float64(a) / float64(b)` is the
ceiling of the exact quotient, for `0 < a < 2^53` and every `b > 0`. -/
theorem ceil_roundF64_div (a b : ℕ) (ha : 0 < a) (ha53 : a < 2 ^ 53) (hb : 0 < b) :
    ⌈roundF64 ((a : ℚ) / roundF64 b)⌉ = ⌈(a : ℚ) / b⌉ := by
  rcases Nat.lt_or_ge b (2 ^ 53) with hlt | hge
  · rw [roundF64_natCast b hlt]
    exact ceil_roundF64_div_exact a b ha ha53 hb
  · have haq : (0 : ℚ) < a := by exact_mod_cast ha
    have hbq : (0 : ℚ) < b := by exact_mod_cast hb
    have hbig : (2 : ℚ) ^ (53 : Int) ≤ (b : ℚ) := by
      rw [show ((53 : Int)) = ((53 : ℕ) : Int) by rfl, zpow_natCast]
      exact_mod_cast hge
    have h1 := roundF64_div_large a ha ha53 (le_roundF64_of_large hbig)
    have hab : (a : ℚ) ≤ b := by
      have : a ≤ b := by omega
      exact_mod_cast this
    have e1 : ⌈roundF64 ((a : ℚ) / roundF64 b)⌉ = 1 := by
      rw [Int.ceil_eq_iff]
      constructor
      · simpa using h1.1
      · simpa using h1.2.le
    have e2 : ⌈(a : ℚ) / b⌉ = 1 := by
      rw [Int.ceil_eq_iff]
      constructor
      · simpa using div_pos haq hbq
      · simpa using (div_le_one hbq).mpr hab
    rw [e1, e2]

/-! ## The number of files -/

theorem toInt_intCast (indefinite k : Int) (h1 : -2 ^ 63 ≤ k) (h2 : k < 2 ^ 63) :
    Float64.toInt indefinite (Float64.fin (k : ℚ)) = k := by
  unfold Float64.toInt
  simp only [Int.floor_intCast, Int.ceil_intCast, ite_self]
  rw [if_pos ⟨h1, h2⟩]

theorem numFiles_of_finite (indefinite : Int) (points : Slice E6Pos) (maxPoints : Int)
    (h : roundF64 (maxPoints : ℚ) ≠ 0) :
    numFiles indefinite points maxPoints
      = Float64.toInt indefinite (Float64.fin
          ((⌈roundF64 (roundF64 ((points.elems.length : Int) : ℚ) / roundF64 maxPoints)⌉ : Int) : ℚ)) := by
  simp [numFiles, Float64.ofInt, Float64.div, Float64.ceil, Slice.len, h]

theorem numFiles_empty (indefinite : Int) (points : Slice E6Pos) (maxPoints : Int)
    (he : points.elems = []) (hb : maxPoints ≠ 0) : numFiles indefinite points maxPoints = 0 := by
  have hr : roundF64 (maxPoints : ℚ) ≠ 0 := by
    rcases lt_or_gt_of_ne hb with h | h
    · exact (roundF64_neg_of_neg (by exact_mod_cast h)).ne
    · exact (roundF64_pos (by exact_mod_cast h)).ne'
  rw [numFiles_of_finite indefinite points maxPoints hr]
  simp [he, roundF64_zero, Float64.toInt]

theorem numFiles_empty_zero (indefinite : Int) (points : Slice E6Pos)
    (he : points.elems = []) : numFiles indefinite points 0 = indefinite := by
  simp [numFiles, Float64.ofInt, Float64.div, Float64.ceil, Slice.len, he, roundF64_zero,
    Float64.toInt]

theorem numFiles_of_pos (indefinite : Int) (points : Slice E6Pos) (m : ℕ)
    (hne : 0 < points.elems.length) (hlen : points.elems.length < 2 ^ 53) (hm : 0 < m) :
    numFiles indefinite points (m : Int) = ⌈(points.elems.length : ℚ) / (m : ℚ)⌉ := by
  have hmq : (0 : ℚ) < m := by exact_mod_cast hm
  have hnq : (0 : ℚ) < points.elems.length := by exact_mod_cast hne
  have hr : roundF64 (((m : Int)) : ℚ) ≠ 0 := by
    simpa using (roundF64_pos hmq).ne'
  rw [numFiles_of_finite indefinite points _ hr]
  have e1 : roundF64 (((points.elems.length : Int)) : ℚ) = points.elems.length := by
    simpa using roundF64_natCast _ hlen
  have e2 := ceil_roundF64_div _ m hne hlen hm
  simp only [Int.cast_natCast] at e1 ⊢
  rw [e1, e2]
  have hc0 : 0 ≤ ⌈(points.elems.length : ℚ) / (m : ℚ)⌉ :=
    Int.ceil_nonneg (div_nonneg hnq.le hmq.le)
  have hc1 : ⌈(points.elems.length : ℚ) / (m : ℚ)⌉ ≤ points.elems.length := by
    apply Int.ceil_le.mpr
    have : (1 : ℚ) ≤ m := by exact_mod_cast hm
    simpa using div_le_self hnq.le this
  apply toInt_intCast <;> omega

theorem numFiles_self (indefinite : Int) (points : Slice E6Pos)
    (hne : 0 < points.elems.length) :
    numFiles indefinite points points.len = 1 := by
  have hnq : (0 : ℚ) < points.elems.length := by exact_mod_cast hne
  have hr : roundF64 ((points.len : Int) : ℚ) ≠ 0 := by
    simpa [Slice.len] using (roundF64_pos hnq).ne'
  rw [numFiles_of_finite indefinite points _ hr]
  have hr2 : roundF64 (points.elems.length : ℚ) ≠ 0 := (roundF64_pos hnq).ne'
  have h1 : roundF64 (1 : ℚ) = 1 := by simpa using roundF64_natCast 1 (by norm_num)
  simp only [Slice.len, Int.cast_natCast, div_self hr2, h1, Int.ceil_one]
  exact toInt_intCast indefinite 1 (by norm_num) (by norm_num)

theorem numFiles_of_neg (indefinite : Int) (points : Slice E6Pos) (maxPoints : Int)
    (hlen : points.elems.length < 2 ^ 53) (hb : maxPoints < 0) :
    numFiles indefinite points maxPoints ≤ 0 := by
  have hbq : (maxPoints : ℚ) < 0 := by exact_mod_cast hb
  have hB : roundF64 (maxPoints : ℚ) < 0 := roundF64_neg_of_neg hbq
  have hB1 : 1 ≤ -roundF64 (maxPoints : ℚ) := by
    rw [← roundF64_neg]
    apply one_le_roundF64
    have : (1 : Int) ≤ -maxPoints := by omega
    exact_mod_cast this
  rw [numFiles_of_finite indefinite points _ hB.ne]
  have e1 : roundF64 (((points.elems.length : Int)) : ℚ) = points.elems.length := by
    simpa using roundF64_natCast _ hlen
  rw [e1]
  rcases Nat.eq_zero_or_pos points.elems.length with h0 | hpos
  · simp [h0, roundF64_zero, Float64.toInt]
  · have hnq : (0 : ℚ) < points.elems.length := by exact_mod_cast hpos
    have hn53 : (points.elems.length : ℚ) < 2 ^ ((53 : Int) - (0 : ℕ)) := by
      have e0 : ((53 : Int) - ((0 : ℕ) : Int)) = ((53 : ℕ) : Int) := by simp
      rw [e0, zpow_natCast]
      exact_mod_cast hlen
    -- the exact quotient is negative, of magnitude at most the length
    have hx : 0 < (points.elems.length : ℚ) / -roundF64 (maxPoints : ℚ) :=
      div_pos hnq (by linarith)
    have hxle : (points.elems.length : ℚ) / -roundF64 (maxPoints : ℚ) ≤ points.elems.length :=
      div_le_self hnq.le hB1
    have hup := roundF64_le_dyadic hx (points.elems.length : Int) 0
      (lt_of_le_of_lt hxle hn53) (by simpa using hxle)
    have hpos2 := roundF64_pos hx
    have hq : roundF64 ((points.elems.length : ℚ) / roundF64 (maxPoints : ℚ))
        = -roundF64 ((points.elems.length : ℚ) / -roundF64 (maxPoints : ℚ)) := by
      rw [← roundF64_neg, div_neg, neg_neg]
    rw [hq]
    set r := roundF64 ((points.elems.length : ℚ) / -roundF64 (maxPoints : ℚ)) with hr
    have hc0 : ⌈-r⌉ ≤ 0 := by
      apply Int.ceil_le.mpr
      simp only [Int.cast_zero]
      linarith
    have hc1 : -(points.elems.length : Int) ≤ ⌈-r⌉ := by
      have h3 : ((-(points.elems.length : Int) : Int) : ℚ) ≤ -r := by
        simp only [Int.cast_neg, Int.cast_natCast, pow_zero, div_one] at hup ⊢
        linarith
      exact Int.cast_le.mp (le_trans h3 (Int.le_ceil _))
    rw [toInt_intCast indefinite _ (by omega) (by omega)]
    exact hc0

/-! ## The chunking loop -/

theorem wrapInt64_of_range {z : Int} (h1 : -2 ^ 63 ≤ z) (h2 : z < 2 ^ 63) : wrapInt64 z = z := by
  unfold wrapInt64
  omega

theorem wrapInt64_natCast {k : ℕ} (h : k < 2 ^ 63) : wrapInt64 (k : Int) = k :=
  wrapInt64_of_range (by omega) (by omega)

theorem Slice.slice_natCast {α : Type} (s : Slice α) (lo hi : ℕ) (h1 : lo ≤ hi)
    (h2 : hi ≤ s.elems.length + s.spare.length) :
    s.slice lo hi = some
      { elems := ((s.elems ++ s.spare).drop lo).take (hi - lo)
        spare := (s.elems ++ s.spare).drop hi } := by
  have hc : (0 : Int) ≤ lo ∧ (lo : Int) ≤ hi ∧ (hi : Int) ≤ s.cap := by
    refine ⟨by omega, by omega, ?_⟩
    unfold Slice.cap
    omega
  have e : ((hi : Int) - (lo : Int)).toNat = hi - lo := by omega
  unfold Slice.slice
  rw [if_pos hc, e]
  simp

theorem Slice.slice_none {α : Type} (s : Slice α) (lo hi : ℕ)
    (h : s.elems.length + s.spare.length < hi) : s.slice lo hi = none := by
  have hc : ¬ ((0 : Int) ≤ lo ∧ (lo : Int) ≤ hi ∧ (hi : Int) ≤ s.cap) := by
    unfold Slice.cap
    omega
  unfold Slice.slice
  rw [if_neg hc]

theorem Slice.sliceFrom_natCast {α : Type} (s : Slice α) (lo : ℕ) (h : lo ≤ s.elems.length) :
    s.sliceFrom lo = some { elems := s.elems.drop lo, spare := s.spare } := by
  have hc : (0 : Int) ≤ lo ∧ (lo : Int) ≤ s.len := by
    unfold Slice.len
    omega
  unfold Slice.sliceFrom
  rw [if_pos hc]
  simp

theorem newData_of_ne_nil (posData : List E6Pos) (h : posData ≠ []) :
    ∃ d, newData posData = some d := by
  unfold newData
  cases hl : posData.getLast? with
  | none => exact absurd (List.getLast?_eq_none_iff.mp hl) h
  | some last => exact ⟨_, rfl⟩

theorem newData_nil : newData [] = none := rfl

theorem chunkAt_inner (points : Slice E6Pos) (m : ℕ) (i : Int) (s : ℕ) (hs : i * (m : Int) = s)
    (hlen : points.elems.length < 2 ^ 53) (h : s + m < points.elems.length) :
    chunkAt points m i = some
      { elems := (points.elems.drop s).take m
        spare := (points.elems ++ points.spare).drop (s + m) } := by
  have hs1 : wrapInt64 (i * (m : Int)) = (s : Int) := by
    rw [hs]
    exact wrapInt64_natCast (by omega)
  have he : wrapInt64 ((s : Int) + (m : Int)) = ((s + m : ℕ) : Int) := by
    rw [← Nat.cast_add]
    exact wrapInt64_natCast (by omega)
  unfold chunkAt
  simp only [hs1, he]
  rw [Slice.slice_natCast points s (s + m) (by omega) (by omega)]
  have hlt : ¬ (((s + m : ℕ) : Int) ≥ points.len) := by
    unfold Slice.len
    omega
  simp only [hlt, if_false]
  have e1 : s + m - s = m := by omega
  rw [e1, List.drop_append_of_le_length (by omega), List.take_append_of_le_length]
  simp
  omega

/-- The last iteration: `points[start:end]` reaches the end of the trajectory
or passes it, and panics exactly when `end` exceeds the capacity. -/
theorem chunkAt_last (points : Slice E6Pos) (m : ℕ) (i : Int) (s : ℕ) (hs : i * (m : Int) = s)
    (hb : s + m < 2 ^ 63) (h1 : s < points.elems.length)
    (h2 : points.elems.length ≤ s + m) :
    chunkAt points m i =
      if s + m ≤ points.elems.length + points.spare.length then
        some { elems := points.elems.drop s, spare := points.spare }
      else none := by
  have hs1 : wrapInt64 (i * (m : Int)) = (s : Int) := by
    rw [hs]
    exact wrapInt64_natCast (by omega)
  have he : wrapInt64 ((s : Int) + (m : Int)) = ((s + m : ℕ) : Int) := by
    rw [← Nat.cast_add]
    exact wrapInt64_natCast hb
  unfold chunkAt
  simp only [hs1, he]
  by_cases hcap : s + m ≤ points.elems.length + points.spare.length
  · rw [if_pos hcap, Slice.slice_natCast points s (s + m) (by omega) hcap]
    have hge : ((s + m : ℕ) : Int) ≥ points.len := by
      unfold Slice.len
      omega
    simp only [hge, if_true]
    exact Slice.sliceFrom_natCast points s (by omega)
  · rw [if_neg hcap, Slice.slice_none points s (s + m) (by omega)]

theorem chunkLoop_succ_none (points : Slice E6Pos) (maxPoints : Int) (r : ℕ) (i : Int)
    (h : chunkAt points maxPoints i = none) :
    chunkLoop points maxPoints (r + 1) i = { calls := [], completed := false } := by
  simp [chunkLoop, h]

theorem chunkLoop_succ_some (points : Slice E6Pos) (maxPoints : Int) (r : ℕ) (i : Int)
    (out : Slice E6Pos) (h : chunkAt points maxPoints i = some out) (hne : out.elems ≠ []) :
    chunkLoop points maxPoints (r + 1) i =
      { calls := out.elems :: (chunkLoop points maxPoints r (wrapInt64 (i + 1))).calls
        completed := (chunkLoop points maxPoints r (wrapInt64 (i + 1))).completed } := by
  obtain ⟨d, hd⟩ := newData_of_ne_nil out.elems hne
  simp [chunkLoop, h, hd]

theorem window_length_inner (l : List E6Pos) (m j : ℕ) (h : j * m + m ≤ l.length) :
    (window l m j).length = m := by
  simp [window]
  omega

theorem window_last (l : List E6Pos) (m j : ℕ) (h : l.length ≤ j * m + m) :
    window l m j = l.drop (j * m) := by
  unfold window
  apply List.take_of_length_le
  simp
  omega

/-- The loop from counter `i` with `r + 1` iterations left, when iteration
`i + r` is the one that reaches the end of the trajectory. -/
theorem chunkLoop_spec (points : Slice E6Pos) (m : ℕ) (hm : 0 < m) (hm63 : m < 2 ^ 63)
    (hlen : points.elems.length < 2 ^ 53) :
    ∀ r i : ℕ, (i + r) * m < points.elems.length → points.elems.length ≤ (i + r) * m + m →
      chunkLoop points m (r + 1) i =
        if (i + r) * m + m ≤ points.elems.length + points.spare.length then
          { calls := (List.range' i (r + 1)).map (window points.elems m), completed := true }
        else
          { calls := (List.range' i r).map (window points.elems m), completed := false } := by
  intro r
  induction r with
  | zero =>
    intro i h1 h2
    simp only [Nat.add_zero] at h1 h2 ⊢
    have hb : i * m + m < 2 ^ 63 := by
      rcases Nat.eq_zero_or_pos i with h0 | hpos
      · subst h0
        omega
      · have : 1 * m ≤ i * m := Nat.mul_le_mul_right m hpos
        omega
    have hc := chunkAt_last points m i (i * m) (by push_cast; ring) hb h1 h2
    by_cases hcap : i * m + m ≤ points.elems.length + points.spare.length
    · rw [if_pos hcap] at hc ⊢
      have hne : (points.elems.drop (i * m)) ≠ [] := by
        intro h
        have := congrArg List.length h
        simp at this
        omega
      rw [chunkLoop_succ_some points m 0 i _ hc hne]
      simp [chunkLoop, window_last points.elems m i h2]
    · rw [if_neg hcap] at hc ⊢
      rw [chunkLoop_succ_none points m 0 i hc]
      simp
  | succ r ih =>
    intro i h1 h2
    have e1 : (i + (r + 1)) * m = (i + 1 + r) * m := by ring_nf
    have e2 : (i + 1 + r) * m = i * m + m + r * m := by ring
    have hmi : i * 1 ≤ i * m := Nat.mul_le_mul_left i hm
    rw [e1] at h1 h2
    have hin : i * m + m < points.elems.length := by omega
    have hc := chunkAt_inner points m i (i * m) (by push_cast; ring) hlen hin
    have hne : ((points.elems.drop (i * m)).take m) ≠ [] := by
      intro h
      have := congrArg List.length h
      simp at this
      omega
    have hw : wrapInt64 ((i : Int) + 1) = ((i + 1 : ℕ) : Int) := by
      rw [← Nat.cast_one (R := Int), ← Nat.cast_add]
      exact wrapInt64_natCast (by omega)
    rw [chunkLoop_succ_some points m (r + 1) i _ hc hne, hw, ih (i + 1) h1 h2, e1]
    by_cases hcap : (i + 1 + r) * m + m ≤ points.elems.length + points.spare.length
    · simp only [if_pos hcap]
      rw [List.range'_succ (s := i)]
      simp [window]
    · simp only [if_neg hcap]
      rw [List.range'_succ (s := i)]
      simp [window]

/-! ## splineFile: the run as a whole -/

theorem ceil_div_eq (n m : ℕ) (hn : 0 < n) (hm : 0 < m) :
    ⌈(n : ℚ) / (m : ℚ)⌉ = (((n - 1) / m + 1 : ℕ) : Int) := by
  have hmq : (0 : ℚ) < m := by exact_mod_cast hm
  have h1 : (n - 1) / m * m ≤ n - 1 := Nat.div_mul_le_self (n - 1) m
  have h2 : n - 1 < (n - 1) / m * m + m := by
    have e := Nat.div_add_mod (n - 1) m
    have hmod := Nat.mod_lt (n - 1) hm
    rw [Nat.mul_comm] at e
    omega
  generalize (n - 1) / m = k at h1 h2 ⊢
  rw [Int.ceil_eq_iff]
  constructor
  · rw [lt_div_iff₀ hmq]
    have : k * m < n := by omega
    have h3 : ((k * m : ℕ) : ℚ) < n := by exact_mod_cast this
    push_cast at h3 ⊢
    linarith
  · rw [div_le_iff₀ hmq]
    have : n ≤ k * m + m := by omega
    have h3 : (n : ℚ) ≤ ((k * m + m : ℕ) : ℚ) := by exact_mod_cast this
    push_cast at h3 ⊢
    linarith

theorem numFiles_eq_div (indefinite : Int) (points : Slice E6Pos) (m : ℕ)
    (hne : 0 < points.elems.length) (hlen : points.elems.length < 2 ^ 53) (hm : 0 < m) :
    numFiles indefinite points (m : Int) = (((points.elems.length - 1) / m + 1 : ℕ) : Int) := by
  rw [numFiles_of_pos indefinite points m hne hlen hm, ceil_div_eq _ m hne hm]

/-- The run of `splineFile` on a non-empty trajectory with a positive chunk
size `m`: the windows of the trajectory in order, all of them when the end
index of the last iteration fits in the capacity, all but the last one
followed by a panic otherwise. -/
theorem splineFile_of_pos (indefinite : Int) (points : Slice E6Pos) (m : ℕ)
    (hne : 0 < points.elems.length) (hlen : points.elems.length < 2 ^ 53)
    (hm : 0 < m) (hm63 : m < 2 ^ 63) :
    splineFile indefinite points (m : Int) =
      if (points.elems.length - 1) / m * m + m ≤ points.elems.length + points.spare.length then
        { calls := (List.range' 0 ((points.elems.length - 1) / m + 1)).map (window points.elems m)
          completed := true }
      else
        { calls := (List.range' 0 ((points.elems.length - 1) / m)).map (window points.elems m)
          completed := false } := by
  have hm0 : (m : Int) ≠ 0 := by omega
  have h1 : (points.elems.length - 1) / m * m ≤ points.elems.length - 1 :=
    Nat.div_mul_le_self _ m
  have h2 : points.elems.length - 1 < (points.elems.length - 1) / m * m + m := by
    have e := Nat.div_add_mod (points.elems.length - 1) m
    have hmod := Nat.mod_lt (points.elems.length - 1) hm
    rw [Nat.mul_comm] at e
    omega
  unfold splineFile
  simp only [hm0, if_false]
  rw [numFiles_eq_div indefinite points m hne hlen hm, Int.toNat_natCast]
  have := chunkLoop_spec points m hm hm63 hlen ((points.elems.length - 1) / m) 0
    (by simpa using (by omega : (points.elems.length - 1) / m * m < points.elems.length))
    (by simpa using (by omega : points.elems.length ≤ (points.elems.length - 1) / m * m + m))
  simpa using this

theorem flatten_windows (l : List E6Pos) (m : ℕ) :
    ∀ r : ℕ, ((List.range' 0 r).map (window l m)).flatten = l.take (r * m) := by
  intro r
  induction r with
  | zero => simp
  | succ r ih =>
    rw [List.range'_concat, List.map_append, List.flatten_append, ih]
    simp only [window, List.map_cons, List.map_nil, List.flatten_cons, List.flatten_nil,
      List.append_nil, Nat.zero_add, Nat.one_mul]
    rw [Nat.add_mul, Nat.one_mul, List.take_add]

/-- When the capacity of the trajectory covers the end index of the last
iteration, the loop completes and its chunks concatenate to the trajectory. -/
theorem splineFile_reassembles_of_capacity (indefinite : Int) (points : Slice E6Pos) (m : ℕ)
    (hne : 0 < points.elems.length) (hlen : points.elems.length < 2 ^ 53)
    (hm : 0 < m) (hm63 : m < 2 ^ 63)
    (hcap : (points.elems.length - 1) / m * m + m
      ≤ points.elems.length + points.spare.length) :
    (splineFile indefinite points (m : Int)).completed = true ∧
      (splineFile indefinite points (m : Int)).calls.flatten = points.elems := by
  rw [splineFile_of_pos indefinite points m hne hlen hm hm63, if_pos hcap]
  refine ⟨rfl, ?_⟩
  simp only
  rw [flatten_windows]
  apply List.take_of_length_le
  have e := Nat.div_add_mod (points.elems.length - 1) m
  have hmod := Nat.mod_lt (points.elems.length - 1) hm
  rw [Nat.mul_comm] at e
  rw [Nat.add_mul, Nat.one_mul]
  omega

theorem sampleTrajectory_length (n : ℕ) : (sampleTrajectory n).length = n := by
  simp [sampleTrajectory]

theorem sampleTrajectory_ne_nil (n : ℕ) (h : 0 < n) : sampleTrajectory n ≠ [] := by
  intro he
  have := congrArg List.length he
  rw [sampleTrajectory_length] at this
  simp at this
  omega

/-! ## calcRemainTime -/

theorem roundF64_nonneg {x : ℚ} (hx : 0 ≤ x) : 0 ≤ roundF64 x := by
  rcases hx.eq_or_lt with h | h
  · rw [← h, roundF64_zero]
  · exact (roundF64_pos h).le

/-- Rounding is bounded by every representable number above the argument. -/
theorem roundF64_le_of_le_value {x y : ℚ} (hx : 0 < x) (hxy : x ≤ y) (hy : roundF64 y = y) :
    roundF64 x ≤ y := by
  have hy0 : 0 < y := lt_of_lt_of_le hx hxy
  have hlog : Int.log 2 x ≤ Int.log 2 y := Int.log_mono_right hx hxy
  have hd : (0 : Int) ≤ Int.log 2 y - Int.log 2 x := by omega
  have key : y = ((roundHalfEven (y / 2 ^ (Int.log 2 y - 52))
      * 2 ^ (Int.log 2 y - Int.log 2 x).toNat : Int) : ℚ) * 2 ^ (Int.log 2 x - 52) := by
    have h2 : ((2 : ℚ) ^ (Int.log 2 y - Int.log 2 x).toNat)
        = (2 : ℚ) ^ (Int.log 2 y - Int.log 2 x) := by
      rw [← zpow_natCast, Int.toNat_of_nonneg hd]
    push_cast
    rw [h2, mul_assoc, ← zpow_add₀ (by norm_num : (2 : ℚ) ≠ 0)]
    have : Int.log 2 y - Int.log 2 x + (Int.log 2 x - 52) = Int.log 2 y - 52 := by ring
    rw [this, ← roundF64_of_pos hy0, hy]
  rw [key] at hxy ⊢
  exact roundF64_le_of_mul_ulp hx _ hxy

theorem Float64.sub_fin (a b : ℚ) :
    Float64.fin a - Float64.fin b = Float64.fin (roundF64 (a - b)) := rfl

theorem Float64.sub_self_fin (a : ℚ) : Float64.fin a - Float64.fin a = 0 := by
  rw [Float64.sub_fin, sub_self, roundF64_zero]
  rfl

theorem roundF64_one : roundF64 1 = 1 := by
  simpa using roundF64_natCast 1 (by norm_num)

/-- When no point at the positions `1..i` carries a time mark, the loop ends
with the time code of the point at position 1 (or with its initial value when
`i = 0`). -/
theorem calcRemainLoop_no_mark (posData : List E6Pos) :
    ∀ (i : ℕ) (prev : Float64), i < posData.length →
      (∀ (k : ℕ) (p : E6Pos), 1 ≤ k → k ≤ i → posData[k]? = some p → p.TimeMark = 0) →
      calcRemainLoop posData i prev =
        if i = 0 then some prev else (posData[1]?).map E6Pos.TimeCode := by
  intro i
  induction i with
  | zero =>
    intro prev _ _
    simp [calcRemainLoop]
  | succ i ih =>
    intro prev hi hz
    have hget : posData[i + 1]? = some posData[i + 1] := List.getElem?_eq_getElem hi
    have hm : posData[i + 1].TimeMark = 0 := hz (i + 1) _ (by omega) le_rfl hget
    rw [calcRemainLoop, hget]
    simp only [hm, ne_eq, not_true_eq_false, if_false]
    rw [ih _ (by omega) (fun k p h1 h2 hp => hz k p h1 (by omega) hp)]
    by_cases h0 : i = 0
    · subst h0
      simp only [Nat.zero_add] at hget
      simp [hget]
    · simp [h0]

/-- When `j` is the greatest position in `1..i` that carries a time mark, the
loop ends with the time code of the point at `j`. -/
theorem calcRemainLoop_mark (posData : List E6Pos) (j : ℕ) (pj : E6Pos) (hj1 : 1 ≤ j)
    (hpj : posData[j]? = some pj) (hmark : pj.TimeMark ≠ 0) :
    ∀ (i : ℕ) (prev : Float64), j ≤ i → i < posData.length →
      (∀ (k : ℕ) (p : E6Pos), j < k → k ≤ i → posData[k]? = some p → p.TimeMark = 0) →
      calcRemainLoop posData i prev = some pj.TimeCode := by
  intro i
  induction i with
  | zero =>
    intro prev hji
    omega
  | succ i ih =>
    intro prev hji hi hz
    have hget : posData[i + 1]? = some posData[i + 1] := List.getElem?_eq_getElem hi
    rw [calcRemainLoop, hget]
    by_cases hij : j = i + 1
    · subst hij
      rw [hget] at hpj
      simp only [Option.some.injEq] at hpj
      subst hpj
      simp [hmark]
    · have hm : posData[i + 1].TimeMark = 0 := hz (i + 1) _ (by omega) le_rfl hget
      simp only [hm, ne_eq, not_true_eq_false, if_false]
      exact ih _ (by omega) (by omega) (fun k p h1 h2 hp => hz k p h1 (by omega) hp)

/-- The loop always ends inside the chunk: its result is the initial value or
the time code of a point at a position in `1..i`. -/
theorem calcRemainLoop_cases (posData : List E6Pos) :
    ∀ (i : ℕ) (prev : Float64), i < posData.length →
      ∃ r, calcRemainLoop posData i prev = some r ∧
        ((i = 0 ∧ r = prev) ∨ ∃ (k : ℕ) (p : E6Pos), 1 ≤ k ∧ k ≤ i ∧ posData[k]? = some p ∧
          r = p.TimeCode) := by
  intro i
  induction i with
  | zero =>
    intro prev _
    exact ⟨prev, by simp [calcRemainLoop], Or.inl ⟨rfl, rfl⟩⟩
  | succ i ih =>
    intro prev hi
    have hget : posData[i + 1]? = some posData[i + 1] := List.getElem?_eq_getElem hi
    rw [calcRemainLoop, hget]
    by_cases hm : posData[i + 1].TimeMark = 0
    · simp only [hm, ne_eq, not_true_eq_false, if_false]
      obtain ⟨r, hr, hcase⟩ := ih posData[i + 1].TimeCode (by omega)
      refine ⟨r, hr, Or.inr ?_⟩
      rcases hcase with ⟨h0, hrp⟩ | ⟨k, p, h1, h2, hp, hrp⟩
      · exact ⟨i + 1, _, by omega, le_rfl, hget, hrp⟩
      · exact ⟨k, p, h1, by omega, hp, hrp⟩
    · simp only [ne_eq, hm, not_false_eq_true, if_true]
      exact ⟨_, rfl, Or.inr ⟨i + 1, _, by omega, le_rfl, hget, rfl⟩⟩

theorem getLast?_eq_getElem? (l : List E6Pos) : l.getLast? = l[l.length - 1]? := by
  rw [List.getLast?_eq_getElem?]

theorem Float64.fin_eq_zero_iff (q : ℚ) : Float64.fin q = 0 ↔ q = 0 := by
  constructor
  · intro h
    exact Float64.fin.inj h
  · intro h
    rw [h]
    rfl

theorem Float64.le_zero_fin (q : ℚ) : Float64.le 0 (Float64.fin q) = decide (0 ≤ q) := rfl

theorem Float64.le_fin_fin (a b : ℚ) :
    Float64.le (Float64.fin a) (Float64.fin b) = decide (a ≤ b) := rfl

theorem Float64.eq_fin_of_isFinite {x : Float64} (h : x.isFinite = true) : ∃ q, x = Float64.fin q := by
  cases x with
  | fin q => exact ⟨q, rfl⟩
  | posInf => simp [Float64.isFinite] at h
  | negInf => simp [Float64.isFinite] at h
  | nan => simp [Float64.isFinite] at h

theorem Float64.le_transitive {x y z : Float64} (h1 : Float64.le x y = true)
    (h2 : Float64.le y z = true) : Float64.le x z = true := by
  cases x <;> cases y <;> cases z <;> simp_all [Float64.le]
  exact h1.trans h2

/-- The residual `a - b` of two representable numbers `0 ≤ b ≤ a` lies in
`[0, a]` after rounding. -/
theorem roundF64_sub_bounds {a b : ℚ} (hb : 0 ≤ b) (hba : b ≤ a) (ha : roundF64 a = a) :
    0 ≤ roundF64 (a - b) ∧ roundF64 (a - b) ≤ a := by
  have h0 : 0 ≤ a - b := by linarith
  refine ⟨roundF64_nonneg h0, ?_⟩
  rcases h0.eq_or_lt with h | h
  · rw [← h, roundF64_zero]
    linarith
  · exact roundF64_le_of_le_value h (by linarith) ha

/-! ## parsePoints -/

theorem exists_eight_fields (record : List String) (h : 8 ≤ record.length) :
    ∃ f0 f1 f2 f3 f4 f5 f6 f7 rest,
      record = f0 :: f1 :: f2 :: f3 :: f4 :: f5 :: f6 :: f7 :: rest := by
  rcases record with _ | ⟨f0, _ | ⟨f1, _ | ⟨f2, _ | ⟨f3, _ | ⟨f4, _ | ⟨f5, _ | ⟨f6, _ | ⟨f7, rest⟩⟩⟩⟩⟩⟩⟩⟩
  all_goals first
    | exact ⟨f0, f1, f2, f3, f4, f5, f6, f7, rest, rfl⟩
    | (simp at h; try omega)

/-- A record of at least 8 fields gives a point whose members are the parsed
fields, in the order of the columns. -/
theorem recordPoint_of_eight (parseFloat : String → Float64 × Bool)
    (trimSpace : String → String) (currentRec : Int) (record : List String)
    (h : 8 ≤ record.length) :
    ∃ p, recordPoint parseFloat trimSpace currentRec record = some p ∧ p.Index = currentRec ∧
      (∀ (i : ℕ) (f : String), i < 8 → record[i]? = some f →
        p.column i = (parseFloat (trimSpace f)).1) ∧
      p.S = 6 ∧ p.T = 19 ∧
      p.E1 = 0 ∧ p.E2 = 0 ∧ p.E3 = 0 ∧ p.E4 = 0 ∧ p.E5 = 0 ∧ p.E6 = 0 := by
  obtain ⟨f0, f1, f2, f3, f4, f5, f6, f7, rest, rfl⟩ := exists_eight_fields record h
  have hp : recordPoint parseFloat trimSpace currentRec
      (f0 :: f1 :: f2 :: f3 :: f4 :: f5 :: f6 :: f7 :: rest) = some
        { Index := currentRec
          TimeCode := (parseFloat (trimSpace f0)).1
          X := (parseFloat (trimSpace f1)).1
          Y := (parseFloat (trimSpace f2)).1
          Z := (parseFloat (trimSpace f3)).1
          A := (parseFloat (trimSpace f4)).1
          B := (parseFloat (trimSpace f5)).1
          C := (parseFloat (trimSpace f6)).1
          TimeMark := (parseFloat (trimSpace f7)).1
          S := 6
          T := 19 } := by
    simp [recordPoint]
  refine ⟨_, hp, rfl, ?_, rfl, rfl, rfl, rfl, rfl, rfl, rfl, rfl⟩
  intro i f hi hf
  have hcases : i = 0 ∨ i = 1 ∨ i = 2 ∨ i = 3 ∨ i = 4 ∨ i = 5 ∨ i = 6 ∨ i = 7 := by omega
  rcases hcases with rfl | rfl | rfl | rfl | rfl | rfl | rfl | rfl <;>
    · simp only [List.getElem?_cons_zero, List.getElem?_cons_succ, Option.some.injEq] at hf
      subst hf
      rfl

/-- A record of fewer than 8 fields makes the loop body panic. -/
theorem recordPoint_of_short (parseFloat : String → Float64 × Bool)
    (trimSpace : String → String) (currentRec : Int) (record : List String)
    (h : record.length < 8) : recordPoint parseFloat trimSpace currentRec record = none := by
  rcases record with _ | ⟨f0, _ | ⟨f1, _ | ⟨f2, _ | ⟨f3, _ | ⟨f4, _ | ⟨f5, _ | ⟨f6, _ | ⟨f7, rest⟩⟩⟩⟩⟩⟩⟩⟩
  all_goals first
    | rfl
    | (simp at h; omega)

/-- The loop over a table whose records all have at least 8 fields: one point
per record, in the order of the records, numbered from `currentRec` on. -/
theorem parsePointsLoop_spec (parseFloat : String → Float64 × Bool)
    (trimSpace : String → String) :
    ∀ (records : List (List String)) (currentRec : Int) (points : List E6Pos),
      (∀ r ∈ records, 8 ≤ r.length) →
      ∃ out, parsePointsLoop parseFloat trimSpace records currentRec points = some (points ++ out) ∧
        out.length = records.length ∧
        ∀ (k : ℕ) (r : List String), records[k]? = some r →
          out[k]? = recordPoint parseFloat trimSpace (currentRec + k) r := by
  intro records
  induction records with
  | nil =>
    intro currentRec points _
    exact ⟨[], by simp [parsePointsLoop], rfl, fun k r hr => by simp at hr⟩
  | cons record rest ih =>
    intro currentRec points h
    obtain ⟨p, hp, _⟩ := recordPoint_of_eight parseFloat trimSpace currentRec record
      (h record (List.mem_cons_self _ _))
    obtain ⟨out, hout, hlen, hk⟩ := ih (currentRec + 1) (points ++ [p])
      (fun r hr => h r (List.mem_cons_of_mem _ hr))
    refine ⟨p :: out, ?_, by simp [hlen], ?_⟩
    · rw [parsePointsLoop, hp]
      simp only
      rw [hout]
      simp
    · intro k r hr
      cases k with
      | zero =>
        simp only [List.getElem?_cons_zero, Option.some.injEq] at hr
        subst hr
        simp [hp]
      | succ k =>
        simp only [List.getElem?_cons_succ] at hr ⊢
        rw [hk k r hr]
        congr 1
        push_cast
        ring

/-- The loop panics as soon as the table holds a record of fewer than 8
fields. -/
theorem parsePointsLoop_of_short (parseFloat : String → Float64 × Bool)
    (trimSpace : String → String) :
    ∀ (records : List (List String)) (currentRec : Int) (points : List E6Pos),
      (∃ r ∈ records, r.length < 8) →
      parsePointsLoop parseFloat trimSpace records currentRec points = none := by
  intro records
  induction records with
  | nil =>
    intro _ _ h
    obtain ⟨r, hr, _⟩ := h
    simp at hr
  | cons record rest ih =>
    intro currentRec points h
    rw [parsePointsLoop]
    cases hp : recordPoint parseFloat trimSpace currentRec record with
    | none => rfl
    | some p =>
      simp only
      apply ih
      obtain ⟨r, hr, hlen⟩ := h
      rcases List.mem_cons.mp hr with rfl | hmem
      · rw [recordPoint_of_short parseFloat trimSpace currentRec r hlen] at hp
        cases hp
      · exact ⟨r, hmem, hlen⟩

/-! ## The model of strconv.ParseFloat -/

theorem le_roundF64_of_zpow_le {x : ℚ} {t : Int} (h : (2 : ℚ) ^ t ≤ x) :
    (2 : ℚ) ^ t ≤ roundF64 x := by
  have hx : 0 < x := lt_of_lt_of_le (by positivity) h
  have h1 : t ≤ Int.log 2 x := le_log_of_zpow_le hx h
  exact le_trans (zpow_le_zpow_right₀ (by norm_num) h1) (zpow_log_le_roundF64 hx)

theorem roundF64_lt_of_lt_two_pow_53 {x : ℚ} (h0 : 0 ≤ x) (h : x < 2 ^ (53 : ℕ)) :
    roundF64 x < 2 ^ (1024 : ℕ) := by
  rcases h0.eq_or_lt with h1 | h1
  · rw [← h1, roundF64_zero]
    positivity
  · have hlt : x < 2 ^ ((53 : Int) - (0 : ℕ)) := by
      have e0 : ((53 : Int) - ((0 : ℕ) : Int)) = ((53 : ℕ) : Int) := by simp
      rw [e0, zpow_natCast]
      exact h
    have := roundF64_le_dyadic h1 ((2 : Int) ^ 53) 0 hlt (by
      simp only [pow_zero, div_one]
      push_cast
      exact h.le)
    simp only [pow_zero, div_one] at this
    push_cast at this
    calc roundF64 x ≤ 2 ^ 53 := this
      _ < 2 ^ (1024 : ℕ) := by norm_num

theorem roundBinary64_of_normal {x : ℚ} (h : 1 / 2 ^ 1022 ≤ |x|) :
    roundBinary64 x = roundF64 x := by
  unfold roundBinary64
  rw [if_neg (not_lt.mpr h)]

theorem roundBinary64_zero : roundBinary64 0 = 0 := by
  simp [roundBinary64]

theorem roundBinary64_of_zero_or_normal {x : ℚ} (h : x = 0 ∨ 1 / 2 ^ 1022 ≤ x) :
    roundBinary64 x = roundF64 x := by
  rcases h with h | h
  · rw [h, roundBinary64_zero, roundF64_zero]
  · have h0 : (0 : ℚ) < 1 / 2 ^ 1022 := by positivity
    exact roundBinary64_of_normal (by rw [abs_of_pos (lt_of_lt_of_le h0 h)]; exact h)

/-- The model on a literal that is 0 or a normal number below `2^53`: the
rounded value, no error. -/
theorem strconvParseFloat_of_readFloat (s : String) (neg hex : Bool) (mant : ℕ) (e : Int)
    (hs : readSpecial s.toList = none) (hr : readFloat s.toList = some (neg, hex, mant, e))
    (h0 : (mant : ℚ) * (if hex then (2 : ℚ) else (10 : ℚ)) ^ e = 0 ∨
      1 / 2 ^ 1022 ≤ (mant : ℚ) * (if hex then (2 : ℚ) else (10 : ℚ)) ^ e)
    (hb : (mant : ℚ) * (if hex then (2 : ℚ) else (10 : ℚ)) ^ e < 2 ^ (53 : ℕ)) :
    strconvParseFloat s =
      (Float64.fin
        (if neg then -roundF64 ((mant : ℚ) * (if hex then (2 : ℚ) else (10 : ℚ)) ^ e)
        else roundF64 ((mant : ℚ) * (if hex then (2 : ℚ) else (10 : ℚ)) ^ e)), false) := by
  have hnn : (0 : ℚ) ≤ (mant : ℚ) * (if hex then (2 : ℚ) else (10 : ℚ)) ^ e := by
    cases hex <;> simp <;> positivity
  have hlt := roundF64_lt_of_lt_two_pow_53 hnn hb
  unfold strconvParseFloat
  rw [hs, hr]
  simp only
  rw [roundBinary64_of_zero_or_normal h0, if_neg (not_le.mpr hlt)]

/-- The model on a literal beyond the range of `float64`: an infinity and a
range error. -/
theorem strconvParseFloat_of_overflow (s : String) (neg hex : Bool) (mant : ℕ) (e : Int)
    (hs : readSpecial s.toList = none) (hr : readFloat s.toList = some (neg, hex, mant, e))
    (hb : (2 : ℚ) ^ (1024 : ℕ) ≤ (mant : ℚ) * (if hex then (2 : ℚ) else (10 : ℚ)) ^ e) :
    strconvParseFloat s = ((if neg then Float64.negInf else Float64.posInf), true) := by
  have hbig : (1 : ℚ) / 2 ^ 1022 ≤ (mant : ℚ) * (if hex then (2 : ℚ) else (10 : ℚ)) ^ e := by
    have h1 : (1 : ℚ) / 2 ^ 1022 ≤ 2 ^ (1024 : ℕ) := by norm_num
    exact le_trans h1 hb
  have h := le_roundF64_of_zpow_le (t := 1024)
    (x := (mant : ℚ) * (if hex then (2 : ℚ) else (10 : ℚ)) ^ e)
    (by rw [show ((1024 : Int)) = ((1024 : ℕ) : Int) by rfl, zpow_natCast]; exact hb)
  rw [show ((1024 : Int)) = ((1024 : ℕ) : Int) by rfl, zpow_natCast] at h
  unfold strconvParseFloat
  rw [hs, hr]
  simp only
  rw [roundBinary64_of_zero_or_normal (Or.inr hbig), if_pos h]

/-- The model on a text that is neither a spelling of infinity or NaN nor a
literal: 0 and a syntax error. -/
theorem strconvParseFloat_of_syntax_error (s : String)
    (hs : readSpecial s.toList = none) (hr : readFloat s.toList = none) :
    strconvParseFloat s = (0, true) := by
  simp only [strconvParseFloat, hs, hr]
  rfl

/-- The contract of `strconv.ParseFloat` on failure, for the model: with a
non-nil error the value is 0 (syntax error) or an infinity (range error). -/
theorem strconvParseFloat_contract (s : String) (herr : (strconvParseFloat s).2 = true) :
    (strconvParseFloat s).1 = 0 ∨ (strconvParseFloat s).1 = Float64.posInf ∨
      (strconvParseFloat s).1 = Float64.negInf := by
  cases hs : readSpecial s.toList with
  | some f =>
    simp only [strconvParseFloat, hs] at herr
    cases herr
  | none =>
    cases hr : readFloat s.toList with
    | none =>
      left
      rw [strconvParseFloat_of_syntax_error s hs hr]
    | some t =>
      obtain ⟨neg, hex, mant, e⟩ := t
      simp only [strconvParseFloat, hs, hr] at herr ⊢
      by_cases hbig : (2 : ℚ) ^ (1024 : ℕ)
          ≤ roundBinary64 ((mant : ℚ) * (if hex then (2 : ℚ) else (10 : ℚ)) ^ e)
      · rw [if_pos hbig]
        cases neg
        · right; left; rfl
        · right; right; rfl
      · rw [if_neg hbig] at herr
        cases herr

theorem roundHalfEven_of_lt_half {m : ℚ} (h0 : 0 ≤ m) (h : m < 1 / 2) : roundHalfEven m = 0 := by
  have hf : ⌊m⌋ = 0 := by
    rw [Int.floor_eq_iff]
    constructor
    · simpa using h0
    · have : m < 1 := by linarith
      simpa using this
  unfold roundHalfEven
  simp only [hf, Int.cast_zero, sub_zero]
  rw [if_pos h]

/-- The model on a literal below half the smallest subnormal number: it
underflows to 0, without error. -/
theorem strconvParseFloat_of_underflow (s : String) (neg hex : Bool) (mant : ℕ) (e : Int)
    (hs : readSpecial s.toList = none) (hr : readFloat s.toList = some (neg, hex, mant, e))
    (hb : (mant : ℚ) * (if hex then (2 : ℚ) else (10 : ℚ)) ^ e * 2 ^ 1074 < 1 / 2) :
    strconvParseFloat s = (Float64.fin 0, false) := by
  have hnn : (0 : ℚ) ≤ (mant : ℚ) * (if hex then (2 : ℚ) else (10 : ℚ)) ^ e := by
    cases hex <;> simp <;> positivity
  have hsmall : |(mant : ℚ) * (if hex then (2 : ℚ) else (10 : ℚ)) ^ e| < 1 / 2 ^ 1022 := by
    rw [abs_of_nonneg hnn]
    have h1 : (mant : ℚ) * (if hex then (2 : ℚ) else (10 : ℚ)) ^ e
        = ((mant : ℚ) * (if hex then (2 : ℚ) else (10 : ℚ)) ^ e * 2 ^ 1074) / 2 ^ 1074 := by
      field_simp
    rw [h1, div_lt_div_iff₀ (by positivity) (by positivity)]
    have h2 : (1 : ℚ) / 2 * 2 ^ 1022 < 1 * 2 ^ 1074 := by norm_num
    have h3 : (0 : ℚ) < 2 ^ 1022 := by positivity
    nlinarith
  have hv : roundBinary64 ((mant : ℚ) * (if hex then (2 : ℚ) else (10 : ℚ)) ^ e) = 0 := by
    unfold roundBinary64
    rw [if_pos hsmall, abs_of_nonneg hnn,
      roundHalfEven_of_lt_half (mul_nonneg hnn (by positivity)) hb]
    simp
  unfold strconvParseFloat
  rw [hs, hr]
  simp only
  rw [hv, if_neg (by norm_num)]
  simp

/-- Rounding keeps a dyadic number with a significand below `2^53`. -/
theorem roundF64_dyadic (c : ℕ) (s : ℕ) (hc : 0 < c) (h : (c : ℚ) / 2 ^ s < 2 ^ ((53 : Int) - s)) :
    roundF64 ((c : ℚ) / 2 ^ s) = (c : ℚ) / 2 ^ s := by
  have hx : (0 : ℚ) < (c : ℚ) / 2 ^ s := by positivity
  have e1 := roundF64_le_dyadic hx (c : Int) s h (by simp)
  have e2 := dyadic_le_roundF64 hx (c : Int) s h (by simp)
  simp only [Int.cast_natCast] at e1 e2
  exact le_antisymm e1 e2

/-! ## circle -/

theorem roundHalfEven_le_add_half (m : ℚ) : (roundHalfEven m : ℚ) ≤ m + 1 / 2 := by
  have hle : (⌊m⌋ : ℚ) ≤ m := Int.floor_le m
  unfold roundHalfEven
  simp only
  split_ifs with h1 h2 h3
  · linarith
  · push_cast; linarith
  · linarith
  · have : m - ⌊m⌋ = 1 / 2 := le_antisymm (not_lt.mp h2) (not_lt.mp h1)
    push_cast
    linarith

theorem roundF64_le_add_half_ulp {x : ℚ} (hx : 0 < x) :
    roundF64 x ≤ x + 2 ^ (Int.log 2 x - 53) := by
  have hu : (0 : ℚ) < 2 ^ (Int.log 2 x - 52) := by positivity
  have h1 := roundHalfEven_le_add_half (x / 2 ^ (Int.log 2 x - 52))
  have h2 := mul_le_mul_of_nonneg_right h1 hu.le
  rw [roundF64_of_pos hx]
  have h3 : (2 : ℚ) ^ (Int.log 2 x - 53) = 1 / 2 * 2 ^ (Int.log 2 x - 52) := by
    have : Int.log 2 x - 53 = (Int.log 2 x - 52) + (-1) := by ring
    rw [this, zpow_add₀ (by norm_num : (2 : ℚ) ≠ 0)]
    norm_num
    ring
  rw [h3]
  have h4 : (x / 2 ^ (Int.log 2 x - 52) + 1 / 2) * 2 ^ (Int.log 2 x - 52)
      = x + 1 / 2 * 2 ^ (Int.log 2 x - 52) := by
    field_simp
    ring
  linarith

/-- Below 8 the rounding error of a `float64` operation is at most
`2^-51`. -/
theorem roundF64_near {x : ℚ} (hx : 0 < x) (h8 : x < 8) :
    x - 1 / 2 ^ 51 ≤ roundF64 x ∧ roundF64 x ≤ x + 1 / 2 ^ 51 := by
  have hlog : Int.log 2 x < 3 := log_lt_of_lt_zpow hx (by norm_num; exact h8)
  have hpow : (2 : ℚ) ^ (Int.log 2 x - 53) ≤ 1 / 2 ^ 51 := by
    have h1 : (2 : ℚ) ^ (Int.log 2 x - 53) ≤ 2 ^ (-51 : Int) :=
      zpow_le_zpow_right₀ (by norm_num) (by omega)
    have h2 : (2 : ℚ) ^ (-51 : Int) = 1 / 2 ^ 51 := by
      rw [zpow_neg, one_div]
      norm_num
    rw [h2] at h1
    exact h1
  have hlo := sub_half_ulp_le_roundF64 hx
  have hhi := roundF64_le_add_half_ulp hx
  constructor <;> linarith

/-- The accumulated angle stays within `j / 2^50` of `j / 10` during the
first 63 iterations. -/
theorem angleSeq_near : ∀ j : ℕ, j ≤ 63 →
    (j : ℚ) / 10 - j / 2 ^ 50 ≤ angleSeq j ∧ angleSeq j ≤ (j : ℚ) / 10 + j / 2 ^ 50 := by
  intro j
  induction j with
  | zero =>
    intro _
    simp [angleSeq]
  | succ j ih =>
    intro hj
    obtain ⟨hlo, hhi⟩ := ih (by omega)
    have hj63 : (j : ℚ) ≤ 62 := by
      have : j ≤ 62 := by omega
      exact_mod_cast this
    have hj0 : (0 : ℚ) ≤ j := by positivity
    obtain ⟨slo, shi⟩ := roundF64_near (x := 1 / 10) (by norm_num) (by norm_num)
    have hsum0 : 0 < angleSeq j + roundF64 (1 / 10) := by
      have : (j : ℚ) / 10 - j / 2 ^ 50 ≥ 0 := by
        have : (j : ℚ) / 2 ^ 50 ≤ j / 10 := by
          apply div_le_div_of_nonneg_left hj0 (by norm_num) (by norm_num)
        linarith
      have : (0 : ℚ) < 1 / 10 - 1 / 2 ^ 51 := by norm_num
      linarith
    have hsum8 : angleSeq j + roundF64 (1 / 10) < 8 := by
      have h1 : (j : ℚ) / 10 ≤ 62 / 10 := by linarith
      have h2 : (j : ℚ) / 2 ^ 50 ≤ 62 / 2 ^ 50 := by
        apply div_le_div_of_nonneg_right hj63 (by norm_num)
      have h3 : (62 : ℚ) / 10 + 62 / 2 ^ 50 + (1 / 10 + 1 / 2 ^ 51) < 8 := by norm_num
      linarith
    obtain ⟨rlo, rhi⟩ := roundF64_near hsum0 hsum8
    have e51 : (1 : ℚ) / 2 ^ 51 + 1 / 2 ^ 51 = 1 / 2 ^ 50 := by norm_num
    simp only [angleSeq]
    push_cast
    constructor
    · have : ((j : ℚ) + 1) / 10 - (j + 1) / 2 ^ 50
          = (j : ℚ) / 10 - j / 2 ^ 50 + 1 / 10 - (1 / 2 ^ 51 + 1 / 2 ^ 51) := by
        rw [e51]
        ring
      rw [this]
      linarith
    · have : ((j : ℚ) + 1) / 10 + (j + 1) / 2 ^ 50
          = (j : ℚ) / 10 + j / 2 ^ 50 + 1 / 10 + (1 / 2 ^ 51 + 1 / 2 ^ 51) := by
        rw [e51]
        ring
      rw [this]
      linarith

theorem angleSeq_lt_twoPi (j : ℕ) (hj : j < 63) :
    Float64.lt (Float64.fin (angleSeq j)) twoPi = true := by
  obtain ⟨_, hhi⟩ := angleSeq_near j (by omega)
  have hj62 : (j : ℚ) ≤ 62 := by
    have : j ≤ 62 := by omega
    exact_mod_cast this
  have h1 : (j : ℚ) / 10 ≤ 62 / 10 := by linarith
  have h2 : (j : ℚ) / 2 ^ 50 ≤ 62 / 2 ^ 50 := by
    apply div_le_div_of_nonneg_right hj62 (by norm_num)
  have h3 : (62 : ℚ) / 10 + 62 / 2 ^ 50 < 884279719003555 / 2 ^ 47 := by norm_num
  simp only [Float64.lt, twoPi, decide_eq_true_eq]
  linarith

theorem angleSeq_63_ge_twoPi : Float64.lt (Float64.fin (angleSeq 63)) twoPi = false := by
  obtain ⟨hlo, _⟩ := angleSeq_near 63 le_rfl
  have h3 : (884279719003555 : ℚ) / 2 ^ 47 < 63 / 10 - 63 / 2 ^ 50 := by norm_num
  simp only [Float64.lt, twoPi, decide_eq_false_iff_not, not_lt]
  push_cast at hlo
  linarith

theorem angle_step (j : ℕ) :
    Float64.fin (angleSeq j) + angleStep = Float64.fin (angleSeq (j + 1)) := rfl

/-- The loop of `circle` from iteration `j` on, with `d` iterations left
before the angle reaches `2π`: it appends the points of the iterations
`j .. 62` and leaves the counter after 63 increments. -/
theorem circleLoop_spec (sincos : Float64 → Float64 × Float64) (radius : Float64)
    (center abcAngles : point) (k : Int) :
    ∀ (d j fuel : ℕ) (points : List E6Pos), j + d = 63 → d ≤ fuel →
      circleLoop sincos radius center abcAngles fuel (Float64.fin (angleSeq j))
          (counterAt k j) points =
        some (points ++ (List.range' j d).map
          (fun (i : ℕ) => circlePoint sincos radius center abcAngles (counterAt k (i + 1))
            (Float64.fin (angleSeq i))), counterAt k 63) := by
  intro d
  induction d with
  | zero =>
    intro j fuel points hj _
    have hj63 : j = 63 := by omega
    subst hj63
    cases fuel with
    | zero => simp [circleLoop, angleSeq_63_ge_twoPi]
    | succ f => simp [circleLoop, angleSeq_63_ge_twoPi]
  | succ d ih =>
    intro j fuel points hj hfuel
    obtain ⟨f, rfl⟩ : ∃ f, fuel = f + 1 := ⟨fuel - 1, by omega⟩
    have hlt := angleSeq_lt_twoPi j (by omega)
    have e : wrapInt64 (counterAt k j + 1) = counterAt k (j + 1) := rfl
    rw [circleLoop, if_pos hlt, angle_step, e, ih (j + 1) f _ (by omega) (by omega),
      List.range'_succ]
    simp

theorem circle_spec (fuel : ℕ) (sincos : Float64 → Float64 × Float64) (radius : Float64)
    (center abcAngles : point) (k : Int) (hfuel : 63 ≤ fuel) :
    circle fuel sincos radius center abcAngles k =
      some (circleTrace sincos radius center abcAngles k, counterAt k 63) := by
  have h := circleLoop_spec sincos radius center abcAngles k 63 0 fuel [] rfl hfuel
  simp only [List.nil_append] at h
  exact h

theorem circleTrace_length (sincos : Float64 → Float64 × Float64) (radius : Float64)
    (center abcAngles : point) (k : Int) :
    (circleTrace sincos radius center abcAngles k).length = 63 := by
  simp [circleTrace]

theorem circleTrace_ne_nil (sincos : Float64 → Float64 × Float64) (radius : Float64)
    (center abcAngles : point) (k : Int) :
    circleTrace sincos radius center abcAngles k ≠ [] := by
  intro h
  have := congrArg List.length h
  rw [circleTrace_length] at this
  cases this

/-- The counter does not wrap as long as it stays in the range of `int`. -/
theorem counterAt_of_range (k : Int) (hk : -2 ^ 63 ≤ k) :
    ∀ i : ℕ, k + (i : Int) < 2 ^ 63 → counterAt k i = k + (i : Int) := by
  intro i
  induction i with
  | zero =>
    intro _
    simp [counterAt]
  | succ i ih =>
    intro hi
    have hprev : counterAt k i = k + (i : Int) := ih (by push_cast at hi; omega)
    rw [counterAt, hprev, wrapInt64_of_range (by omega) (by push_cast at hi; omega)]
    push_cast
    ring

theorem circleTrace_indices (sincos : Float64 → Float64 × Float64) (radius : Float64)
    (center abcAngles : point) (k : Int) (hk : -2 ^ 63 ≤ k) (hk63 : k + 63 < 2 ^ 63) :
    (circleTrace sincos radius center abcAngles k).map E6Pos.Index = indexRun k 63 := by
  simp only [circleTrace, indexRun, List.map_map, List.range_eq_range']
  apply List.map_congr_left
  intro i hi
  have hi63 : i < 63 := by
    have := (List.mem_range'_1.mp hi).2
    omega
  simp only [Function.comp, circlePoint]
  rw [counterAt_of_range k hk (i + 1) (by push_cast; omega)]
  push_cast
  ring

theorem indexRun_length (k : Int) (n : ℕ) : (indexRun k n).length = n := by
  simp [indexRun]

theorem indexRun_append (k : Int) (m n : ℕ) :
    indexRun k m ++ indexRun (k + m) n = indexRun k (m + n) := by
  simp only [indexRun, List.range_add, List.map_append, List.map_map]
  congr 1
  apply List.map_congr_left
  intro i _
  simp only [Function.comp]
  push_cast
  ring

/-- The loop of `randomCircle`: the indices of the points it appends continue
the counter without a gap, as long as the counter stays in the range of
`int`. -/
theorem randomCircleLoop_spec (fuel : ℕ) (sincos : Float64 → Float64 × Float64)
    (hfuel : 63 ≤ fuel) :
    ∀ (draws : List (Int × Int × Int × Int)) (pointIndex : Int) (points : List E6Pos),
      -2 ^ 63 ≤ pointIndex → pointIndex + 63 * (draws.length : Int) < 2 ^ 63 →
      ∃ new, randomCircleLoop fuel sincos draws pointIndex points
          = some (points ++ new, pointIndex + new.length) ∧
        new.length = 63 * draws.length ∧
        new.map E6Pos.Index = indexRun pointIndex new.length := by
  intro draws
  induction draws with
  | nil =>
    intro pointIndex points _ _
    exact ⟨[], by simp [randomCircleLoop], rfl, rfl⟩
  | cons dr rest ih =>
    intro pointIndex points hlo hhi
    obtain ⟨rx, rz, ra, rr⟩ := dr
    have hhi2 : pointIndex + 63 + 63 * (rest.length : Int) < 2 ^ 63 := by
      simp only [List.length_cons] at hhi
      push_cast at hhi
      omega
    have hcnt : counterAt pointIndex 63 = pointIndex + 63 :=
      counterAt_of_range pointIndex hlo 63 (by push_cast; omega)
    rw [randomCircleLoop, circle_spec fuel sincos _ _ _ pointIndex hfuel, hcnt]
    simp only
    obtain ⟨new, hnew, hlen, hidx⟩ := ih (pointIndex + 63)
      (points ++ circleTrace sincos (Float64.ofInt (rr + 30))
        ⟨Float64.ofInt (rx + 550), Float64.fin 0, Float64.ofInt (rz + 450)⟩
        ⟨Float64.ofInt (ra + 45), Float64.fin 0, Float64.fin (-180)⟩ pointIndex)
      (by omega) hhi2
    refine ⟨circleTrace sincos (Float64.ofInt (rr + 30))
        ⟨Float64.ofInt (rx + 550), Float64.fin 0, Float64.ofInt (rz + 450)⟩
        ⟨Float64.ofInt (ra + 45), Float64.fin 0, Float64.fin (-180)⟩ pointIndex ++ new, ?_, ?_, ?_⟩
    · have e1 : ∀ t : List E6Pos, t.length = 63 →
          pointIndex + 63 + (new.length : Int) = pointIndex + ((t ++ new).length : Int) := by
        intro t ht
        rw [List.length_append, ht]
        push_cast
        ring
      rw [hnew, List.append_assoc, e1 _ (circleTrace_length _ _ _ _ _)]
    · simp only [List.length_append, circleTrace_length, hlen, List.length_cons]
      ring
    · rw [List.map_append, circleTrace_indices _ _ _ _ pointIndex hlo (by omega), hidx,
        List.length_append, circleTrace_length]
      exact indexRun_append pointIndex 63 new.length

theorem repeatLoop_spec (points : List E6Pos) :
    ∀ (n : ℕ) (totalPoints : List E6Pos),
      repeatLoop points n totalPoints = totalPoints ++ (List.replicate n points).flatten := by
  intro n
  induction n with
  | zero => intro totalPoints; simp [repeatLoop]
  | succ n ih =>
    intro totalPoints
    rw [repeatLoop, ih, List.replicate_succ, List.flatten_cons, List.append_assoc]

/-- The trajectory `repeatCircle` assembles for at least one circle: the
points of one call of `circle`, repeated. -/
theorem repeatCircle_spec (fuel : ℕ) (sincos : Float64 → Float64 × Float64)
    (numOfCircles : Int) (hfuel : 63 ≤ fuel) (hn : 1 ≤ numOfCircles) :
    repeatCircle fuel sincos numOfCircles =
      some (List.replicate numOfCircles.toNat
        (circleTrace sincos (Float64.fin 100)
          ⟨Float64.fin 700, Float64.fin 0, Float64.fin 600⟩
          ⟨Float64.fin 90, Float64.fin 0, Float64.fin (-180)⟩ 0)).flatten := by
  obtain ⟨m, hm⟩ : ∃ m : ℕ, numOfCircles.toNat = m + 1 := ⟨numOfCircles.toNat - 1, by omega⟩
  unfold repeatCircle
  rw [circle_spec fuel sincos _ _ _ 0 hfuel]
  simp only
  obtain ⟨d1, hd1⟩ := newData_of_ne_nil _ (circleTrace_ne_nil sincos (Float64.fin 100)
    ⟨Float64.fin 700, Float64.fin 0, Float64.fin 600⟩
    ⟨Float64.fin 90, Float64.fin 0, Float64.fin (-180)⟩ 0)
  rw [hd1]
  simp only
  rw [repeatLoop_spec, List.nil_append]
  have hne : (List.replicate numOfCircles.toNat
      (circleTrace sincos (Float64.fin 100)
        ⟨Float64.fin 700, Float64.fin 0, Float64.fin 600⟩
        ⟨Float64.fin 90, Float64.fin 0, Float64.fin (-180)⟩ 0)).flatten ≠ [] := by
    rw [hm, List.replicate_succ, List.flatten_cons]
    intro h
    have := congrArg List.length h
    simp [circleTrace_length] at this
  obtain ⟨d2, hd2⟩ := newData_of_ne_nil _ hne
  rw [hd2]

/-! ## Chunks of a parsed table -/

/-- The points of a parsed table are numbered from 1 in the order of the
records. -/
theorem parsePoints_index (parseFloat : String → Float64 × Bool)
    (trimSpace : String → String) (records : List (List String))
    (h : ∀ r ∈ records, 8 ≤ r.length) :
    ∃ pts, parsePoints parseFloat trimSpace records [] = some pts ∧
      pts.length = records.length ∧
      ∀ (k : ℕ) (p : E6Pos), pts[k]? = some p → p.Index = (k : Int) + 1 := by
  obtain ⟨out, hout, hlen, hk⟩ := parsePointsLoop_spec parseFloat trimSpace records 1 [] h
  refine ⟨out, by simpa [parsePoints] using hout, hlen, ?_⟩
  intro k p hp
  have hklt : k < records.length := by
    by_contra hcon
    rw [List.getElem?_eq_none (by omega)] at hp
    cases hp
  have hr : records[k]? = some records[k] := List.getElem?_eq_getElem hklt
  obtain ⟨q, hq, hidx, _⟩ := recordPoint_of_eight parseFloat trimSpace (1 + (k : Int))
    records[k] (h _ (List.getElem_mem _))
  rw [hk k _ hr, hq] at hp
  rw [← Option.some.inj hp, hidx, add_comm]

theorem window_getElem? (l : List E6Pos) (m i j : ℕ) (p : E6Pos)
    (h : (window l m i)[j]? = some p) : l[i * m + j]? = some p ∧ j < m := by
  unfold window at h
  rw [List.getElem?_take] at h
  split_ifs at h with hj
  · rw [List.getElem?_drop] at h
    exact ⟨h, hj⟩

theorem splineFile_empty (indefinite : Int) (points : Slice E6Pos) (maxSize : Int)
    (he : points.elems = []) (h0 : maxSize ≠ 0) :
    splineFile indefinite points maxSize = { calls := [], completed := true } := by
  unfold splineFile
  simp only [h0, if_false]
  rw [numFiles_empty indefinite points maxSize he h0]
  rfl

/-- Every chunk the loop emits for a positive chunk size `m` is the window of
its ordinal, and the window starts inside the trajectory. -/
theorem splineFile_calls_window (indefinite : Int) (points : Slice E6Pos) (m : ℕ)
    (hlen : points.elems.length < 2 ^ 53) (hm : 0 < m) (hm63 : m < 2 ^ 63)
    (i : ℕ) (chunk : List E6Pos)
    (hc : (splineFile indefinite points (m : Int)).calls[i]? = some chunk) :
    chunk = window points.elems m i ∧ i * m < points.elems.length := by
  rcases Nat.eq_zero_or_pos points.elems.length with h0 | hpos
  · rw [splineFile_empty indefinite points m (List.length_eq_zero.mp h0) (by omega)] at hc
    simp at hc
  · have h1 : (points.elems.length - 1) / m * m ≤ points.elems.length - 1 :=
      Nat.div_mul_le_self _ m
    have key : ∀ r : ℕ, r ≤ (points.elems.length - 1) / m + 1 →
        ((List.range' 0 r).map (window points.elems m))[i]? = some chunk →
        chunk = window points.elems m i ∧ i * m < points.elems.length := by
      intro r hr hget
      have hir : i < r := by
        by_contra hcon
        rw [List.getElem?_eq_none (by simp; omega)] at hget
        cases hget
      rw [List.getElem?_map, List.getElem?_range' _ _ hir] at hget
      simp only [Option.map_some', Option.some.injEq, Nat.zero_add, Nat.one_mul] at hget
      have hjk : i * m ≤ (points.elems.length - 1) / m * m :=
        Nat.mul_le_mul_right m (by omega)
      exact ⟨hget.symm, by omega⟩
    rw [splineFile_of_pos indefinite points m hpos hlen hm hm63] at hc
    split_ifs at hc with hcap
    · exact key _ le_rfl hc
    · exact key _ (by omega) hc

/-- The run on the empty trajectory with `maxSize = 0` when the conversion
`int(NaN)` is positive: the loop hands one empty chunk to `writeTemplate`,
which panics. -/
theorem splineFile_empty_zero_of_pos (indefinite : Int) (points : Slice E6Pos)
    (he : points.elems = []) (hind : 0 < indefinite) :
    splineFile indefinite points 0 = { calls := [[]], completed := false } := by
  have hlen : points.len = 0 := by simp [Slice.len, he]
  unfold splineFile
  simp only [if_true, hlen]
  rw [numFiles_empty_zero indefinite points he]
  obtain ⟨n, hn⟩ : ∃ n : ℕ, indefinite.toNat = n + 1 := ⟨indefinite.toNat - 1, by omega⟩
  have hw : wrapInt64 0 = 0 := by decide
  have hc : chunkAt points 0 0 = some { elems := [], spare := points.spare } := by
    have hcap : (0 : Int) ≤ points.cap := by
      unfold Slice.cap
      omega
    simp [chunkAt, hw, Slice.slice, Slice.sliceFrom, hlen, hcap, he]
  rw [hn, chunkLoop, hc]
  rfl

/-- The run on the empty trajectory with `maxSize = 0` when the conversion
`int(NaN)` is not positive: no iteration. -/
theorem splineFile_empty_zero_of_nonpos (indefinite : Int) (points : Slice E6Pos)
    (he : points.elems = []) (hind : indefinite ≤ 0) :
    splineFile indefinite points 0 = { calls := [], completed := true } := by
  have hlen : points.len = 0 := by simp [Slice.len, he]
  unfold splineFile
  simp only [if_true, hlen]
  rw [numFiles_empty_zero indefinite points he, Int.toNat_eq_zero.mpr hind]
  rfl

/-! ## Claims on the chunking loop of splineFile -/

/-- C1 (chunk reassembly), evaluated at 63 points and `maxSize = 50`: with
the capacity 71 that `append` leaves after 63 points, the loop hands the first
50 points to `writeTemplate` and then panics on the slice `points[50:100]`;
the 13 remaining points are never emitted. -/
theorem C1_reassembly_63_50_panics (indefinite : Int) :
    splineFile indefinite ⟨sampleTrajectory 63, List.replicate 8 {}⟩ 50
      = { calls := [(sampleTrajectory 63).take 50], completed := false } := by
  have h := splineFile_of_pos indefinite ⟨sampleTrajectory 63, List.replicate 8 {}⟩ 50
    (by simp [sampleTrajectory_length]) (by simp [sampleTrajectory_length])
    (by norm_num) (by norm_num)
  simp only [sampleTrajectory_length, List.length_replicate] at h
  rw [show ((50 : ℕ) : Int) = 50 by rfl] at h
  rw [h]
  simp [window]

/-- C2 (chunk size bound): for a non-empty trajectory and `maxSize > 0`,
every chunk the loop hands to `writeTemplate` other than the last one has
exactly `maxSize` points, and every chunk has between 1 and `maxSize`
points. -/
theorem C2_chunk_size_bound (indefinite : Int) (points : Slice E6Pos) (maxSize : Int)
    (hne : points.elems ≠ []) (hlen : points.elems.length < 2 ^ 53)
    (hpos : 0 < maxSize) (hint : maxSize < 2 ^ 63) :
    (∀ (j : ℕ) (c : List E6Pos), (splineFile indefinite points maxSize).calls[j]? = some c →
        j + 1 < (splineFile indefinite points maxSize).calls.length →
        (c.length : Int) = maxSize) ∧
      (∀ c ∈ (splineFile indefinite points maxSize).calls,
        1 ≤ c.length ∧ (c.length : Int) ≤ maxSize) := by
  obtain ⟨m, rfl⟩ := Int.eq_ofNat_of_zero_le hpos.le
  have hm : 0 < m := by omega
  have hm63 : m < 2 ^ 63 := by omega
  have hn : 0 < points.elems.length := List.length_pos.mpr hne
  have h1 : (points.elems.length - 1) / m * m ≤ points.elems.length - 1 :=
    Nat.div_mul_le_self _ m
  -- every emitted chunk is a window `j` with `j * m < len`
  have hall : ∀ r : ℕ, r ≤ (points.elems.length - 1) / m + 1 →
      ∀ c ∈ (List.range' 0 r).map (window points.elems m),
        1 ≤ c.length ∧ (c.length : Int) ≤ (m : Int) := by
    intro r hr c hc
    simp only [List.mem_map, List.mem_range'_1] at hc
    obtain ⟨j, ⟨_, hj⟩, rfl⟩ := hc
    have hjk : j * m ≤ (points.elems.length - 1) / m * m :=
      Nat.mul_le_mul_right m (by omega)
    simp only [window, List.length_take, List.length_drop]
    omega
  have hfull : ∀ r : ℕ, r ≤ (points.elems.length - 1) / m + 1 →
      ∀ (j : ℕ) (c : List E6Pos), ((List.range' 0 r).map (window points.elems m))[j]? = some c →
        j + 1 < r → (c.length : Int) = (m : Int) := by
    intro r hr j c hc hj
    rw [List.getElem?_map, List.getElem?_range' _ _ (by omega : j < r)] at hc
    simp only [Option.map_some', Option.some.injEq, Nat.zero_add, Nat.one_mul] at hc
    subst hc
    have hjk : (j + 1) * m ≤ (points.elems.length - 1) / m * m :=
      Nat.mul_le_mul_right m (by omega)
    rw [Nat.add_mul, Nat.one_mul] at hjk
    rw [window_length_inner _ _ _ (by omega)]
  rw [splineFile_of_pos indefinite points m hn hlen hm hm63]
  split_ifs with hcap
  · refine ⟨fun j c hc hj => hfull _ le_rfl j c hc (by simpa using hj), hall _ le_rfl⟩
  · refine ⟨fun j c hc hj => hfull _ (by omega) j c hc (by simpa using hj),
      hall _ (by omega)⟩

/-- C2, witness: a trajectory of 3 points with capacity 4, cut with
`maxSize = 2`. -/
theorem C2_chunk_size_bound_witness :
    (∀ (j : ℕ) (c : List E6Pos),
        (splineFile 0 ⟨sampleTrajectory 3, [{}]⟩ 2).calls[j]? = some c →
        j + 1 < (splineFile 0 ⟨sampleTrajectory 3, [{}]⟩ 2).calls.length →
        (c.length : Int) = 2) ∧
      (∀ c ∈ (splineFile 0 ⟨sampleTrajectory 3, [{}]⟩ 2).calls,
        1 ≤ c.length ∧ (c.length : Int) ≤ 2) :=
  C2_chunk_size_bound 0 ⟨sampleTrajectory 3, [{}]⟩ 2 (sampleTrajectory_ne_nil 3 (by norm_num))
    (by simp [sampleTrajectory_length]) (by norm_num) (by norm_num)

/-- C3, counterexample: with `maxSize = -1` a trajectory of 3 points yields no
chunk at all, not one chunk holding the whole trajectory. -/
theorem C3_negative_max_counterexample :
    (splineFile (-2 ^ 63) ⟨sampleTrajectory 3, [{}]⟩ (-1)).calls = [] ∧
      (splineFile (-2 ^ 63) ⟨sampleTrajectory 3, [{}]⟩ (-1)).calls ≠ [sampleTrajectory 3] := by
  have hn := numFiles_of_neg (-2 ^ 63) ⟨sampleTrajectory 3, [{}]⟩ (-1)
    (by simp [sampleTrajectory_length]) (by norm_num)
  have h : (splineFile (-2 ^ 63) ⟨sampleTrajectory 3, [{}]⟩ (-1)).calls = [] := by
    unfold splineFile
    simp only [show ((-1 : Int) = 0) = False by simp, if_false]
    rw [Int.toNat_eq_zero.mpr hn]
    rfl
  exact ⟨h, by rw [h]; simp⟩

/-- C3, amended: for a non-empty trajectory, `maxSize = 0` yields exactly one
chunk, the whole trajectory, and a negative `maxSize` yields no chunk; in both
cases the loop runs to its end. -/
theorem C3_nonpositive_max (indefinite : Int) (points : Slice E6Pos) (maxSize : Int)
    (hne : points.elems ≠ []) (hlen : points.elems.length < 2 ^ 53) (hmax : maxSize ≤ 0) :
    splineFile indefinite points maxSize =
      { calls := if maxSize = 0 then [points.elems] else [], completed := true } := by
  have hn : 0 < points.elems.length := List.length_pos.mpr hne
  by_cases h0 : maxSize = 0
  · subst h0
    unfold splineFile
    simp only [if_true]
    rw [numFiles_self indefinite points hn]
    have hc := chunkAt_last points points.elems.length 0 0 (by simp) (by omega) hn (by omega)
    rw [if_pos (by omega)] at hc
    have e : (1 : Int).toNat = 0 + 1 := rfl
    rw [e, show points.len = ((points.elems.length : ℕ) : Int) from rfl,
      chunkLoop_succ_some points _ 0 0 _ hc (by simpa using hne)]
    simp [chunkLoop]
  · have hneg : maxSize < 0 := lt_of_le_of_ne hmax h0
    unfold splineFile
    simp only [h0, if_false]
    rw [Int.toNat_eq_zero.mpr (numFiles_of_neg indefinite points maxSize hlen hneg)]
    rfl

/-- C3, witness of the amended claim: 63 points, `maxSize = -7`. -/
theorem C3_nonpositive_max_witness :
    splineFile 0 ⟨sampleTrajectory 63, []⟩ (-7) =
      { calls := if (-7 : Int) = 0 then [sampleTrajectory 63] else [], completed := true } :=
  C3_nonpositive_max 0 ⟨sampleTrajectory 63, []⟩ (-7) (sampleTrajectory_ne_nil 63 (by norm_num))
    (by simp [sampleTrajectory_length]) (by norm_num)

/-- C4 (degenerate chunking): for a non-empty trajectory, `maxSize = 0` (the
default of the flag) yields exactly one chunk, holding all the points in
order, and the loop runs to its end. -/
theorem C4_zero_max_one_chunk (indefinite : Int) (points : Slice E6Pos)
    (hne : points.elems ≠ []) (hlen : points.elems.length < 2 ^ 63) :
    splineFile indefinite points 0 = { calls := [points.elems], completed := true } := by
  have hn : 0 < points.elems.length := List.length_pos.mpr hne
  unfold splineFile
  simp only [if_true]
  rw [numFiles_self indefinite points hn]
  have hc := chunkAt_last points points.elems.length 0 0 (by simp) (by omega) hn (by omega)
  rw [if_pos (by omega)] at hc
  have e : (1 : Int).toNat = 0 + 1 := rfl
  rw [e, show points.len = ((points.elems.length : ℕ) : Int) from rfl,
    chunkLoop_succ_some points _ 0 0 _ hc (by simpa using hne)]
  simp [chunkLoop]

/-- C4, witness: a trajectory of 63 points yields one chunk of 63 points. -/
theorem C4_zero_max_one_chunk_witness :
    splineFile (-2 ^ 63) ⟨sampleTrajectory 63, List.replicate 8 {}⟩ 0
        = { calls := [sampleTrajectory 63], completed := true } ∧
      (sampleTrajectory 63).length = 63 :=
  ⟨C4_zero_max_one_chunk (-2 ^ 63) ⟨sampleTrajectory 63, List.replicate 8 {}⟩
      (sampleTrajectory_ne_nil 63 (by norm_num)) (by simp [sampleTrajectory_length]),
    sampleTrajectory_length 63⟩

/-- C5 (`maxSize` larger than the trajectory), evaluated at 3 points with the
capacity 4 that `append` leaves and `maxSize = 50`: the loop panics on the
slice `points[0:50]` before any chunk is handed to `writeTemplate`. -/
theorem C5_max_beyond_length_panics (indefinite : Int) :
    splineFile indefinite ⟨sampleTrajectory 3, [{}]⟩ 50 = { calls := [], completed := false } := by
  have h := splineFile_of_pos indefinite ⟨sampleTrajectory 3, [{}]⟩ 50
    (by simp [sampleTrajectory_length]) (by simp [sampleTrajectory_length])
    (by norm_num) (by norm_num)
  simp only [sampleTrajectory_length] at h
  rw [show ((50 : ℕ) : Int) = 50 by rfl] at h
  rw [h]
  simp

/-- C6, counterexample: on a platform whose conversion `int(NaN)` is
`2^63 - 1`, the empty trajectory with the default `maxSize = 0` has the chunk
count `int(ceil(0/0)) = 2^63 - 1`; the loop hands the empty chunk to
`writeTemplate`, which panics on `posData[len(posData)-1]`. -/
theorem C6_empty_trajectory_counterexample :
    splineFile (2 ^ 63 - 1) ⟨[], []⟩ 0 = { calls := [[]], completed := false } ∧
      splineFile (2 ^ 63 - 1) ⟨[], []⟩ 0 ≠ { calls := [], completed := true } := by
  have h : splineFile (2 ^ 63 - 1) ⟨[], []⟩ 0 = { calls := [[]], completed := false } := by
    exact splineFile_empty_zero_of_pos (2 ^ 63 - 1) ⟨[], []⟩ rfl (by decide)
  refine ⟨h, ?_⟩
  rw [h]
  intro hc
  cases hc

/-- C6, amended: for the empty trajectory and every `maxSize` other than 0
the loop hands no chunk to `writeTemplate` and runs to its end; for
`maxSize = 0` the chunk count is `int(NaN)`, and the same holds exactly when
that conversion is not positive on the platform (`-2^63` on amd64, `0` on
arm64); when it is positive the loop hands one empty chunk to `writeTemplate`
and panics. -/
theorem C6_empty_trajectory_chunks (indefinite : Int) (points : Slice E6Pos) (maxSize : Int)
    (he : points.elems = []) :
    splineFile indefinite points maxSize =
      if maxSize = 0 ∧ 0 < indefinite then { calls := [[]], completed := false }
      else { calls := [], completed := true } := by
  by_cases h0 : maxSize = 0
  · subst h0
    by_cases hind : 0 < indefinite
    · rw [if_pos ⟨rfl, hind⟩]
      exact splineFile_empty_zero_of_pos indefinite points he hind
    · rw [if_neg (fun h => hind h.2)]
      exact splineFile_empty_zero_of_nonpos indefinite points he (not_lt.mp hind)
  · rw [if_neg (fun h => h0 h.1)]
    exact splineFile_empty indefinite points maxSize he h0

/-- C6, witness of the amended claim: the empty trajectory with the default
`maxSize = 0` on amd64, and with `maxSize = 50`. -/
theorem C6_empty_trajectory_chunks_witness :
    splineFile (-2 ^ 63) ⟨[], []⟩ 0 =
        (if (0 : Int) = 0 ∧ (0 : Int) < -2 ^ 63 then { calls := [[]], completed := false }
          else { calls := [], completed := true }) ∧
      splineFile (-2 ^ 63) ⟨[], []⟩ 50 =
        (if (50 : Int) = 0 ∧ (0 : Int) < -2 ^ 63 then { calls := [[]], completed := false }
          else { calls := [], completed := true }) :=
  ⟨C6_empty_trajectory_chunks (-2 ^ 63) ⟨[], []⟩ 0 rfl,
    C6_empty_trajectory_chunks (-2 ^ 63) ⟨[], []⟩ 50 rfl⟩

/-! ## Claims on calcRemainTime -/

/-- C7 (checkpoint at the first point), evaluated at the chunk with
`timeCode = [1, 2, 3]` and `timeMark = [1, 0, 0]`: the loop stops at position
1 without looking at position 0, and the result is `3 - 2 = 1`, not
`3 - 1 = 2`. -/
theorem C7_first_point_checkpoint_evaluated :
    calcRemainTime [timed 1 1, timed 2 0, timed 3 0] = some (Float64.fin 1) := by
  have h : roundF64 ((3 : ℚ) - 2) = 1 := by
    rw [show ((3 : ℚ) - 2) = 1 by norm_num, roundF64_one]
  simp [calcRemainTime, calcRemainLoop, timed, Float64.fin_eq_zero_iff, Float64.sub_fin, h]

/-- C8 (no checkpoint), evaluated: a chunk of one point with `timeCode = 5`
gives `5 - 0 = 5`, not 0, and the chunk with `timeCode = [1, 2, 3]` and no
time mark gives `3 - 2 = 1`, not `3 - 1 = 2`: the point at position 0 is never
read. -/
theorem C8_no_checkpoint_evaluated :
    calcRemainTime [timed 5 0] = some (Float64.fin 5) ∧
      calcRemainTime [timed 1 0, timed 2 0, timed 3 0] = some (Float64.fin 1) := by
  have h5 : roundF64 (5 : ℚ) = 5 := by
    simpa using roundF64_natCast 5 (by norm_num)
  have h : roundF64 ((3 : ℚ) - 2) = 1 := by
    rw [show ((3 : ℚ) - 2) = 1 by norm_num, roundF64_one]
  constructor
  · have e : (0 : Float64) = Float64.fin 0 := rfl
    simp [calcRemainTime, calcRemainLoop, timed, e, Float64.sub_fin, h5]
  · simp [calcRemainTime, calcRemainLoop, timed, Float64.fin_eq_zero_iff, Float64.sub_fin, h]

/-! ## Claims on parsePoints -/

/-- C9 (parser count and index contiguity): for a table of N records each
having at least 8 fields, `parsePoints` started on an empty point list yields
exactly N points, the point at position `k` (from 0) being the one built from
record `k` and having the index `k + 1`; a table without records yields the
empty trajectory. -/
theorem C9_count_and_indices (parseFloat : String → Float64 × Bool)
    (trimSpace : String → String) (records : List (List String))
    (h : ∀ r ∈ records, 8 ≤ r.length) :
    ∃ out, parsePoints parseFloat trimSpace records [] = some out ∧
      out.length = records.length ∧
      (∀ (k : ℕ) (r : List String), records[k]? = some r →
        out[k]? = recordPoint parseFloat trimSpace ((k : Int) + 1) r) ∧
      (∀ (k : ℕ) (p : E6Pos), out[k]? = some p → p.Index = (k : Int) + 1) ∧
      (records = [] → out = []) := by
  obtain ⟨out, hout, hlen, hk⟩ := parsePointsLoop_spec parseFloat trimSpace records 1 [] h
  have hk2 : ∀ (k : ℕ) (r : List String), records[k]? = some r →
      out[k]? = recordPoint parseFloat trimSpace ((k : Int) + 1) r := by
    intro k r hr
    rw [hk k r hr, add_comm]
  refine ⟨out, by simpa [parsePoints] using hout, hlen, hk2, ?_, ?_⟩
  · intro k p hp
    have hklt : k < records.length := by
      by_contra hcon
      rw [List.getElem?_eq_none (by omega)] at hp
      cases hp
    have hr : records[k]? = some records[k] := List.getElem?_eq_getElem hklt
    obtain ⟨q, hq, hidx, _⟩ := recordPoint_of_eight parseFloat trimSpace ((k : Int) + 1)
      records[k] (h _ (List.getElem_mem _))
    rw [hk2 k _ hr, hq] at hp
    rw [← Option.some.inj hp, hidx]
  · intro he
    rw [he] at hlen
    exact List.length_eq_zero.mp hlen

/-- C9, witness: a table of two records. -/
theorem C9_count_and_indices_witness :
    ∃ out, parsePoints strconvParseFloat stringsTrimSpace [sampleRow, overflowRow] [] = some out ∧
      out.length = [sampleRow, overflowRow].length ∧
      (∀ (k : ℕ) (r : List String), [sampleRow, overflowRow][k]? = some r →
        out[k]? = recordPoint strconvParseFloat stringsTrimSpace ((k : Int) + 1) r) ∧
      (∀ (k : ℕ) (p : E6Pos), out[k]? = some p → p.Index = (k : Int) + 1) ∧
      ([sampleRow, overflowRow] = [] → out = []) :=
  C9_count_and_indices strconvParseFloat stringsTrimSpace [sampleRow, overflowRow]
    (by
      intro r hr
      simp only [List.mem_cons, List.mem_singleton, List.not_mem_nil, or_false] at hr
      rcases hr with rfl | rfl <;> decide)

/-- C10 (table field mapping): in a table whose records all have at least 8
fields, the point built from a record has `TimeCode, X, Y, Z, A, B, C,
TimeMark` equal to the parsed values of the trimmed fields 0 to 7 in that
order, `S = 6`, `T = 19`, and `E1..E6` all 0. -/
theorem C10_field_mapping (parseFloat : String → Float64 × Bool)
    (trimSpace : String → String) (records : List (List String))
    (h : ∀ r ∈ records, 8 ≤ r.length) (k : ℕ) (record : List String)
    (hk : records[k]? = some record) :
    ∃ out p, parsePoints parseFloat trimSpace records [] = some out ∧ out[k]? = some p ∧
      (∀ (i : ℕ) (f : String), i < 8 → record[i]? = some f →
        p.column i = (parseFloat (trimSpace f)).1) ∧
      p.S = 6 ∧ p.T = 19 ∧
      p.E1 = 0 ∧ p.E2 = 0 ∧ p.E3 = 0 ∧ p.E4 = 0 ∧ p.E5 = 0 ∧ p.E6 = 0 := by
  obtain ⟨out, hout, _, hrec⟩ := parsePointsLoop_spec parseFloat trimSpace records 1 [] h
  obtain ⟨p, hp, _, hcol, hrest⟩ := recordPoint_of_eight parseFloat trimSpace (1 + (k : Int))
    record (h record (List.mem_iff_getElem?.mpr ⟨k, hk⟩))
  exact ⟨out, p, by simpa [parsePoints] using hout, by rw [hrec k record hk, hp], hcol, hrest⟩

theorem parse_plain (s : String) (mant : ℕ) (e : Int) (q : ℚ)
    (ht : stringsTrimSpace s = s) (hs : readSpecial s.toList = none)
    (hr : readFloat s.toList = some (false, false, mant, e))
    (h0 : (mant : ℚ) * (10 : ℚ) ^ e = 0 ∨ 1 / 2 ^ 1022 ≤ (mant : ℚ) * (10 : ℚ) ^ e)
    (hb : (mant : ℚ) * (10 : ℚ) ^ e < 2 ^ (53 : ℕ)) (hq : (mant : ℚ) * (10 : ℚ) ^ e = q) :
    (strconvParseFloat (stringsTrimSpace s)).1 = Float64.fin (roundF64 q) := by
  rw [ht, strconvParseFloat_of_readFloat s false false mant e hs hr (by simpa using h0)
    (by simpa using hb)]
  simp only [Bool.false_eq_true, if_false]
  rw [hq]

/-- C10, witness: the record `1.0,44.9624,8.7501,1119.9937,9.2796,0.0,0.0,0.0`
yields one point with index 1, time code 1, the `float64` values nearest to
44.9624, 8.7501, 1119.9937 and 9.2796 for `X, Y, Z, A`, and 0 for `B`, `C`
and the time mark. -/
theorem C10_field_mapping_witness :
    (∃ out p, parsePoints strconvParseFloat stringsTrimSpace [sampleRow] [] = some out ∧
      out[0]? = some p ∧
      (∀ (i : ℕ) (f : String), i < 8 → sampleRow[i]? = some f →
        p.column i = (strconvParseFloat (stringsTrimSpace f)).1) ∧
      p.S = 6 ∧ p.T = 19 ∧
      p.E1 = 0 ∧ p.E2 = 0 ∧ p.E3 = 0 ∧ p.E4 = 0 ∧ p.E5 = 0 ∧ p.E6 = 0) ∧
    parsePoints strconvParseFloat stringsTrimSpace [sampleRow] [] = some
      [{ Index := 1
         TimeCode := Float64.fin 1
         X := Float64.fin (roundF64 (449624 / 10000))
         Y := Float64.fin (roundF64 (87501 / 10000))
         Z := Float64.fin (roundF64 (11199937 / 10000))
         A := Float64.fin (roundF64 (92796 / 10000))
         B := Float64.fin 0
         C := Float64.fin 0
         TimeMark := Float64.fin 0
         S := 6
         T := 19 }] := by
  refine ⟨C10_field_mapping strconvParseFloat stringsTrimSpace [sampleRow]
    (by
      intro r hr
      simp only [List.mem_singleton] at hr
      subst hr
      decide) 0 sampleRow rfl, ?_⟩
  have h0 := parse_plain "1.0" 10 (-1) 1 (by decide) (by decide) (by decide)
    (Or.inr (by norm_num)) (by norm_num) (by norm_num)
  have h1 := parse_plain "44.9624" 449624 (-4) (449624 / 10000) (by decide) (by decide)
    (by decide) (Or.inr (by norm_num)) (by norm_num) (by norm_num)
  have h2 := parse_plain "8.7501" 87501 (-4) (87501 / 10000) (by decide) (by decide)
    (by decide) (Or.inr (by norm_num)) (by norm_num) (by norm_num)
  have h3 := parse_plain "1119.9937" 11199937 (-4) (11199937 / 10000) (by decide) (by decide)
    (by decide) (Or.inr (by norm_num)) (by norm_num) (by norm_num)
  have h4 := parse_plain "9.2796" 92796 (-4) (92796 / 10000) (by decide) (by decide)
    (by decide) (Or.inr (by norm_num)) (by norm_num) (by norm_num)
  have h5 := parse_plain "0.0" 0 (-1) 0 (by decide) (by decide) (by decide)
    (Or.inl (by norm_num)) (by norm_num) (by norm_num)
  rw [roundF64_one] at h0
  rw [roundF64_zero] at h5
  simp only [parsePoints, parsePointsLoop, recordPoint, sampleRow, List.getElem?_cons_zero,
    List.getElem?_cons_succ, h0, h1, h2, h3, h4, h5, List.nil_append]

/-- C11 (malformed rows stop processing): when the table holds a record of
fewer than 8 fields, `parsePoints` returns no trajectory: the index
expression on that record panics. -/
theorem C11_short_record_panics (parseFloat : String → Float64 × Bool)
    (trimSpace : String → String) (records : List (List String)) (points : List E6Pos)
    (h : ∃ r ∈ records, r.length < 8) :
    parsePoints parseFloat trimSpace records points = none :=
  parsePointsLoop_of_short parseFloat trimSpace records 1 points h

/-- C11, witness: a well-formed record followed by one of two fields. -/
theorem C11_short_record_panics_witness :
    parsePoints strconvParseFloat stringsTrimSpace [sampleRow, ["1.0", "2.0"]] [] = none :=
  C11_short_record_panics strconvParseFloat stringsTrimSpace [sampleRow, ["1.0", "2.0"]] []
    ⟨["1.0", "2.0"], by simp, by decide⟩

/-- C12, counterexample: the field `1e999` fails to parse (range error) and
the point stores `+Inf` for it, not 0. -/
theorem C12_permissive_parsing_counterexample :
    (strconvParseFloat (stringsTrimSpace "1e999")).2 = true ∧
      (parsePoints strconvParseFloat stringsTrimSpace [overflowRow] []).map
        (fun out => out.map E6Pos.X) = some [Float64.posInf] ∧
      Float64.posInf ≠ (0 : Float64) := by
  have ht : stringsTrimSpace "1e999" = "1e999" := by decide
  have h := strconvParseFloat_of_overflow "1e999" false false 1 999 (by decide) (by decide)
    (by norm_num)
  refine ⟨by rw [ht, h], ?_, by intro hc; cases hc⟩
  simp only [parsePoints, parsePointsLoop, recordPoint, overflowRow, List.getElem?_cons_zero,
    List.getElem?_cons_succ, ht, h, List.nil_append, Option.map_some', List.map_cons,
    List.map_nil]
  rfl

/-- C12, amended: in a table whose records all have at least 8 fields, every
field among the 8 is stored as the value `strconv.ParseFloat` returns for its
trimmed text, whether or not it also returns an error, and whatever the other
fields are; so, `ParseFloat` returning 0 with a syntax error and an infinity
with a range error, a field that fails to parse is stored as 0 or as an
infinity; and parsing continues, giving one point per record. -/
theorem C12_permissive_parsing (parseFloat : String → Float64 × Bool)
    (trimSpace : String → String) (records : List (List String))
    (h : ∀ r ∈ records, 8 ≤ r.length)
    (hdoc : ∀ s : String, (parseFloat s).2 = true →
      (parseFloat s).1 = 0 ∨ (parseFloat s).1 = Float64.posInf ∨
        (parseFloat s).1 = Float64.negInf) :
    ∃ out, parsePoints parseFloat trimSpace records [] = some out ∧
      out.length = records.length ∧
      ∀ (k : ℕ) (record : List String), records[k]? = some record →
        ∃ p, out[k]? = some p ∧
          ∀ (i : ℕ) (f : String), i < 8 → record[i]? = some f →
            p.column i = (parseFloat (trimSpace f)).1 ∧
            ((parseFloat (trimSpace f)).2 = true →
              p.column i = 0 ∨ p.column i = Float64.posInf ∨ p.column i = Float64.negInf) := by
  obtain ⟨out, hout, hlen, hrec⟩ := parsePointsLoop_spec parseFloat trimSpace records 1 [] h
  refine ⟨out, by simpa [parsePoints] using hout, hlen, ?_⟩
  intro k record hk
  obtain ⟨p, hp, _, hcol, _⟩ := recordPoint_of_eight parseFloat trimSpace
    (1 + (k : Int)) record (h record (List.mem_iff_getElem?.mpr ⟨k, hk⟩))
  refine ⟨p, by rw [hrec k record hk, hp], ?_⟩
  intro i f hi hf
  have hv := hcol i f hi hf
  refine ⟨hv, ?_⟩
  intro herr
  rw [hv]
  exact hdoc _ herr

/-- C12, witness of the amended claim, with the model of `strconv.ParseFloat`:
a table whose first record holds a text that is not a number (stored as 0),
numbers out of range (stored as `+Inf` and `-Inf`), and well-formed numbers
(`1_000`, `0x1p-2`, `1e-400`, ` 2.5 `, `0`, stored as 1000, 0.25, 0, 2.5 and
0). -/
theorem C12_permissive_parsing_witness :
    (∃ out, parsePoints strconvParseFloat stringsTrimSpace [mixedRow, sampleRow] [] = some out ∧
      out.length = [mixedRow, sampleRow].length ∧
      ∀ (k : ℕ) (record : List String), [mixedRow, sampleRow][k]? = some record →
        ∃ p, out[k]? = some p ∧
          ∀ (i : ℕ) (f : String), i < 8 → record[i]? = some f →
            p.column i = (strconvParseFloat (stringsTrimSpace f)).1 ∧
            ((strconvParseFloat (stringsTrimSpace f)).2 = true →
              p.column i = 0 ∨ p.column i = Float64.posInf ∨ p.column i = Float64.negInf)) ∧
    (strconvParseFloat (stringsTrimSpace "abc")).2 = true ∧
    (strconvParseFloat (stringsTrimSpace "1e999")).2 = true ∧
    (strconvParseFloat (stringsTrimSpace "-1e999")).2 = true ∧
    parsePoints strconvParseFloat stringsTrimSpace [mixedRow] [] = some
      [{ Index := 1
         TimeCode := Float64.fin 0
         X := Float64.posInf
         Y := Float64.fin 1000
         Z := Float64.fin (1 / 4)
         A := Float64.fin 0
         B := Float64.negInf
         C := Float64.fin (5 / 2)
         TimeMark := Float64.fin 0
         S := 6
         T := 19 }] := by
  have t0 : stringsTrimSpace "abc" = "abc" := by decide
  have t1 : stringsTrimSpace "1e999" = "1e999" := by decide
  have t2 : stringsTrimSpace "1_000" = "1_000" := by decide
  have t3 : stringsTrimSpace "0x1p-2" = "0x1p-2" := by decide
  have t4 : stringsTrimSpace "1e-400" = "1e-400" := by decide
  have t5 : stringsTrimSpace "-1e999" = "-1e999" := by decide
  have t6 : stringsTrimSpace " 2.5 " = "2.5" := by decide
  have t7 : stringsTrimSpace "0" = "0" := by decide
  have h0 : strconvParseFloat "abc" = (Float64.fin 0, true) :=
    strconvParseFloat_of_syntax_error "abc" (by decide) (by decide)
  have h1 : strconvParseFloat "1e999" = (Float64.posInf, true) :=
    strconvParseFloat_of_overflow "1e999" false false 1 999 (by decide) (by decide)
      (by norm_num)
  have h2 : strconvParseFloat "1_000" = (Float64.fin 1000, false) := by
    rw [strconvParseFloat_of_readFloat "1_000" false false 1000 0 (by decide) (by decide)
      (Or.inr (by norm_num)) (by norm_num)]
    have e : roundF64 (((1000 : ℕ) : ℚ) * (10 : ℚ) ^ (0 : Int)) = 1000 := by
      rw [zpow_zero, mul_one]
      exact roundF64_natCast 1000 (by norm_num)
    simp only [Bool.false_eq_true, if_false, e]
  have h3 : strconvParseFloat "0x1p-2" = (Float64.fin (1 / 4), false) := by
    rw [strconvParseFloat_of_readFloat "0x1p-2" false true 1 (-2) (by decide) (by decide)
      (Or.inr (by norm_num)) (by norm_num)]
    have e : roundF64 (((1 : ℕ) : ℚ) * (2 : ℚ) ^ (-2 : Int)) = 1 / 4 := by
      have := roundF64_dyadic 1 2 (by norm_num) (by norm_num)
      rw [show (((1 : ℕ) : ℚ) * (2 : ℚ) ^ (-2 : Int)) = ((1 : ℕ) : ℚ) / 2 ^ 2 by norm_num, this]
      norm_num
    simp only [if_true, Bool.false_eq_true, if_false, e]
  have h4 : strconvParseFloat "1e-400" = (Float64.fin 0, false) :=
    strconvParseFloat_of_underflow "1e-400" false false 1 (-400) (by decide) (by decide)
      (by norm_num)
  have h5 : strconvParseFloat "-1e999" = (Float64.negInf, true) :=
    strconvParseFloat_of_overflow "-1e999" true false 1 999 (by decide) (by decide)
      (by norm_num)
  have h6 : strconvParseFloat "2.5" = (Float64.fin (5 / 2), false) := by
    rw [strconvParseFloat_of_readFloat "2.5" false false 25 (-1) (by decide) (by decide)
      (Or.inr (by norm_num)) (by norm_num)]
    have e : roundF64 (((25 : ℕ) : ℚ) * (10 : ℚ) ^ (-1 : Int)) = 5 / 2 := by
      have := roundF64_dyadic 5 1 (by norm_num) (by norm_num)
      rw [show (((25 : ℕ) : ℚ) * (10 : ℚ) ^ (-1 : Int)) = ((5 : ℕ) : ℚ) / 2 ^ 1 by norm_num, this]
      norm_num
    simp only [Bool.false_eq_true, if_false, e]
  have h7 : strconvParseFloat "0" = (Float64.fin 0, false) := by
    rw [strconvParseFloat_of_readFloat "0" false false 0 0 (by decide) (by decide)
      (Or.inl (by norm_num)) (by norm_num)]
    have e : roundF64 (((0 : ℕ) : ℚ) * (10 : ℚ) ^ (0 : Int)) = 0 := by
      rw [Nat.cast_zero, zero_mul, roundF64_zero]
    simp only [Bool.false_eq_true, if_false, e]
  refine ⟨C12_permissive_parsing strconvParseFloat stringsTrimSpace [mixedRow, sampleRow]
    (by
      intro r hr
      simp only [List.mem_cons, List.mem_singleton, List.not_mem_nil, or_false] at hr
      rcases hr with rfl | rfl <;> decide)
    strconvParseFloat_contract, by rw [t0, h0], by rw [t1, h1], by rw [t5, h5], ?_⟩
  simp only [parsePoints, parsePointsLoop, recordPoint, mixedRow, List.getElem?_cons_zero,
    List.getElem?_cons_succ, t0, t1, t2, t3, t4, t5, t6, t7, h0, h1, h2, h3, h4, h5, h6, h7,
    List.nil_append]

/-! ## Claims on circle, randomCircle and repeatCircle -/

/-- C13, counterexample: entered with the counter `2^63 - 1`, the largest
`int`, `circle` returns a first point of index `-2^63`, not `2^63`: the
increment `*index++` wraps around. -/
theorem C13_index_contiguity_counterexample :
    ∃ pts idx, circle 63 sampleSincos (Float64.fin 100)
        ⟨Float64.fin 700, Float64.fin 0, Float64.fin 600⟩
        ⟨Float64.fin 90, Float64.fin 0, Float64.fin (-180)⟩ (2 ^ 63 - 1) = some (pts, idx) ∧
      (pts.map E6Pos.Index)[0]? = some (-2 ^ 63) ∧
      pts.map E6Pos.Index ≠ indexRun (2 ^ 63 - 1) pts.length := by
  have hA : ((circleTrace sampleSincos (Float64.fin 100)
      ⟨Float64.fin 700, Float64.fin 0, Float64.fin 600⟩
      ⟨Float64.fin 90, Float64.fin 0, Float64.fin (-180)⟩ (2 ^ 63 - 1)).map E6Pos.Index)[0]?
        = some (-2 ^ 63) := by
    simp only [circleTrace, List.range'_succ, List.map_cons, List.getElem?_cons_zero,
      circlePoint]
    exact congrArg some (by decide)
  have hB : (indexRun (2 ^ 63 - 1) 63)[0]? = some (2 ^ 63) := by
    simp only [indexRun, List.range_succ_eq_map, List.map_cons, List.getElem?_cons_zero]
    exact congrArg some (by norm_num)
  refine ⟨_, _, circle_spec 63 sampleSincos _ _ _ (2 ^ 63 - 1) le_rfl, hA, ?_⟩
  intro h
  rw [circleTrace_length] at h
  rw [h, hB] at hA
  exact absurd (Option.some.inj hA) (by norm_num)

/-- C13, amended: a call of `circle` with a counter `k` on entry such that
`k + 63` is still an `int` returns points whose indices are `k+1, ..., k+n` in
order, `n` being the number of points, and leaves the counter at `k+n`; and
the points of any number of successive calls sharing one counter that starts
at 0, as the loop of `randomCircle` makes them, have the indices `1, ..., N`,
as long as `N` is an `int`.  The fuel of the model only has to cover the 63
iterations of `circle`. -/
theorem C13_index_contiguity (fuel : ℕ) (sincos : Float64 → Float64 × Float64)
    (hfuel : 63 ≤ fuel) :
    (∀ (radius : Float64) (center abcAngles : point) (k : Int),
      -2 ^ 63 ≤ k → k + 63 < 2 ^ 63 →
      ∃ pts, circle fuel sincos radius center abcAngles k = some (pts, k + pts.length) ∧
        pts.map E6Pos.Index = indexRun k pts.length) ∧
    (∀ draws : List (Int × Int × Int × Int), 63 * (draws.length : Int) < 2 ^ 63 →
      ∃ pts, randomCircleLoop fuel sincos draws 0 [] = some (pts, (pts.length : Int)) ∧
        pts.map E6Pos.Index = indexRun 0 pts.length ∧
        (draws ≠ [] → randomCircle fuel sincos draws = some pts)) := by
  constructor
  · intro radius center abcAngles k hlo hhi
    refine ⟨circleTrace sincos radius center abcAngles k, ?_, ?_⟩
    · rw [circle_spec fuel sincos radius center abcAngles k hfuel, circleTrace_length,
        counterAt_of_range k hlo 63 (by push_cast; omega)]
    · rw [circleTrace_indices sincos radius center abcAngles k hlo hhi, circleTrace_length]
  · intro draws hdraws
    obtain ⟨new, hnew, hlen, hidx⟩ := randomCircleLoop_spec fuel sincos hfuel draws 0 []
      (by norm_num) (by omega)
    simp only [List.nil_append, zero_add] at hnew
    refine ⟨new, hnew, hidx, ?_⟩
    intro hne
    have hnn : new ≠ [] := by
      intro h
      have hl := congrArg List.length h
      rw [hlen] at hl
      have : 0 < draws.length := List.length_pos.mpr hne
      simp only [List.length_nil] at hl
      omega
    obtain ⟨d, hd⟩ := newData_of_ne_nil new hnn
    unfold randomCircle
    rw [hnew]
    simp only
    rw [hd]

/-- C13, witness of the amended claim: fuel 100; one circle entered with the
counter 126, and two circles drawn with the random values `(1, 2, 3, 4)` and
`(5, 6, 7, 8)`. -/
theorem C13_index_contiguity_witness :
    (∃ pts, circle 100 sampleSincos (Float64.fin 100)
        ⟨Float64.fin 700, Float64.fin 0, Float64.fin 600⟩
        ⟨Float64.fin 90, Float64.fin 0, Float64.fin (-180)⟩ 126 = some (pts, (126 : Int) + pts.length) ∧
      pts.map E6Pos.Index = indexRun 126 pts.length) ∧
    (∃ pts, randomCircleLoop 100 sampleSincos [(1, 2, 3, 4), (5, 6, 7, 8)] 0 []
        = some (pts, (pts.length : Int)) ∧
      pts.map E6Pos.Index = indexRun 0 pts.length ∧
      ([(1, 2, 3, 4), (5, 6, 7, 8)] ≠ ([] : List (Int × Int × Int × Int)) →
        randomCircle 100 sampleSincos [(1, 2, 3, 4), (5, 6, 7, 8)] = some pts)) :=
  ⟨(C13_index_contiguity 100 sampleSincos (by norm_num)).1 (Float64.fin 100)
      ⟨Float64.fin 700, Float64.fin 0, Float64.fin 600⟩
      ⟨Float64.fin 90, Float64.fin 0, Float64.fin (-180)⟩ 126 (by norm_num) (by norm_num),
    (C13_index_contiguity 100 sampleSincos (by norm_num)).2 [(1, 2, 3, 4), (5, 6, 7, 8)]
      (by norm_num)⟩

/-- C14, counterexample: for two circles the indices of the trajectory of
`repeatCircle` are `1..63` twice, not `1..126`. -/
theorem C14_repeat_circle_counterexample :
    (repeatCircle 63 sampleSincos 2).map (fun t => t.map E6Pos.Index)
        = some (indexRun 0 63 ++ indexRun 0 63) ∧
      indexRun 0 63 ++ indexRun 0 63 ≠ indexRun 0 126 := by
  constructor
  · rw [repeatCircle_spec 63 sampleSincos 2 le_rfl (by norm_num)]
    simp only [Option.map_some', show (2 : Int).toNat = 2 from rfl, List.replicate_succ,
      List.replicate_zero, List.flatten_cons, List.flatten_nil, List.append_nil,
      List.map_append,
      circleTrace_indices sampleSincos _ _ _ 0 (by norm_num) (by norm_num)]
  · decide

/-- C14, amended: for every `numOfCircles >= 1` the trajectory `repeatCircle`
assembles has as index values the run `1, ..., 63` of one circle pass,
repeated `numOfCircles` times; it is the contiguous run `1, ..., N` when
`numOfCircles = 1`. -/
theorem C14_repeat_circle_indices (fuel : ℕ) (sincos : Float64 → Float64 × Float64)
    (numOfCircles : Int) (hfuel : 63 ≤ fuel) (hn : 1 ≤ numOfCircles) :
    ∃ totalPoints, repeatCircle fuel sincos numOfCircles = some totalPoints ∧
      totalPoints.map E6Pos.Index = (List.replicate numOfCircles.toNat (indexRun 0 63)).flatten ∧
      (numOfCircles = 1 → totalPoints.map E6Pos.Index = indexRun 0 totalPoints.length) := by
  refine ⟨_, repeatCircle_spec fuel sincos numOfCircles hfuel hn, ?_, ?_⟩
  · rw [List.map_flatten, List.map_replicate,
      circleTrace_indices sincos _ _ _ 0 (by norm_num) (by norm_num)]
  · intro h1
    subst h1
    simp only [show (1 : Int).toNat = 1 from rfl, List.replicate_succ, List.replicate_zero,
      List.flatten_cons, List.flatten_nil, List.append_nil,
      circleTrace_indices sincos _ _ _ 0 (by norm_num) (by norm_num), circleTrace_length]

/-- C14, witness of the amended claim: 30 circles, the default of the flag. -/
theorem C14_repeat_circle_indices_witness :
    ∃ totalPoints, repeatCircle 63 sampleSincos 30 = some totalPoints ∧
      totalPoints.map E6Pos.Index = (List.replicate (30 : Int).toNat (indexRun 0 63)).flatten ∧
      ((30 : Int) = 1 → totalPoints.map E6Pos.Index = indexRun 0 totalPoints.length) :=
  C14_repeat_circle_indices 63 sampleSincos 30 le_rfl (by norm_num)

/-- C15 (circle points carry geometry only): every point `circle` returns has
time code 0 and time mark 0, `X` equal to `center.P1`, `(A, B, C)` equal to
the orientation input, `S = 2`, `T = 43` and `E1..E6` all 0; the points
`parsePoints` builds have `S = 6` and `T = 19` instead. -/
theorem C15_circle_points_geometry_only (fuel : ℕ) (sincos : Float64 → Float64 × Float64)
    (radius : Float64) (center abcAngles : point) (k : Int) (hfuel : 63 ≤ fuel) :
    (∃ pts idx, circle fuel sincos radius center abcAngles k = some (pts, idx) ∧
      ∀ p ∈ pts, p.TimeCode = 0 ∧ p.TimeMark = 0 ∧ p.X = center.P1 ∧
        p.A = abcAngles.P1 ∧ p.B = abcAngles.P2 ∧ p.C = abcAngles.P3 ∧
        p.S = 2 ∧ p.T = 43 ∧
        p.E1 = 0 ∧ p.E2 = 0 ∧ p.E3 = 0 ∧ p.E4 = 0 ∧ p.E5 = 0 ∧ p.E6 = 0) ∧
    (∀ (parseFloat : String → Float64 × Bool) (trimSpace : String → String) (currentRec : Int)
      (record : List String) (q : E6Pos),
      recordPoint parseFloat trimSpace currentRec record = some q → q.S = 6 ∧ q.T = 19) := by
  constructor
  · refine ⟨_, _, circle_spec fuel sincos radius center abcAngles k hfuel, ?_⟩
    intro p hp
    simp only [circleTrace, List.mem_map] at hp
    obtain ⟨i, _, rfl⟩ := hp
    exact ⟨rfl, rfl, rfl, rfl, rfl, rfl, rfl, rfl, rfl, rfl, rfl, rfl, rfl, rfl⟩
  · intro parseFloat trimSpace currentRec record q hq
    rcases Nat.lt_or_ge record.length 8 with hlt | hge
    · rw [recordPoint_of_short parseFloat trimSpace currentRec record hlt] at hq
      cases hq
    · obtain ⟨p, hp, _, _, hS, hT, _⟩ :=
        recordPoint_of_eight parseFloat trimSpace currentRec record hge
      rw [hp] at hq
      rw [← Option.some.inj hq]
      exact ⟨hS, hT⟩

/-- C15, witness: the circle of `repeatCircle`, radius 100 around
`(700, 0, 600)`. -/
theorem C15_circle_points_geometry_only_witness :
    ∃ pts idx, circle 63 sampleSincos (Float64.fin 100)
        ⟨Float64.fin 700, Float64.fin 0, Float64.fin 600⟩
        ⟨Float64.fin 90, Float64.fin 0, Float64.fin (-180)⟩ 0 = some (pts, idx) ∧
      ∀ p ∈ pts, p.TimeCode = 0 ∧ p.TimeMark = 0 ∧ p.X = Float64.fin 700 ∧
        p.A = Float64.fin 90 ∧ p.B = Float64.fin 0 ∧ p.C = Float64.fin (-180) ∧
        p.S = 2 ∧ p.T = 43 ∧
        p.E1 = 0 ∧ p.E2 = 0 ∧ p.E3 = 0 ∧ p.E4 = 0 ∧ p.E5 = 0 ∧ p.E6 = 0 :=
  (C15_circle_points_geometry_only 63 sampleSincos (Float64.fin 100)
    ⟨Float64.fin 700, Float64.fin 0, Float64.fin 600⟩
    ⟨Float64.fin 90, Float64.fin 0, Float64.fin (-180)⟩ 0 le_rfl).1

/-- C16, counterexample: a chunk of two points whose last point is a
checkpoint with an infinite time code (the value `strconv.ParseFloat` returns
for `Inf` or for `1e999`) gives `Inf - Inf = NaN`, not 0. -/
theorem C16_latest_checkpoint_counterexample :
    calcRemainTime [timed 0 0, { TimeCode := Float64.posInf, TimeMark := Float64.fin 1 }]
        = some Float64.nan ∧
      calcRemainTime [timed 0 0, { TimeCode := Float64.posInf, TimeMark := Float64.fin 1 }]
        ≠ some 0 := by
  have h : calcRemainTime [timed 0 0, { TimeCode := Float64.posInf, TimeMark := Float64.fin 1 }]
      = some Float64.nan := by
    simp [calcRemainTime, calcRemainLoop, timed, Float64.fin_eq_zero_iff]
    rfl
  refine ⟨h, ?_⟩
  rw [h]
  intro hc
  cases hc

/-- C16, amended: for a chunk of at least 2 points in which `j >= 1` is the
greatest position whose point has a non-zero time mark, `calcRemainTime`
returns `chunk[last].timeCode - chunk[j].timeCode`; in particular it returns
0 when the last point is itself a checkpoint and its time code is finite. -/
theorem C16_latest_checkpoint (posData : List E6Pos) (j : ℕ) (pj plast : E6Pos)
    (hlen : 2 ≤ posData.length) (hj1 : 1 ≤ j) (hpj : posData[j]? = some pj)
    (hmark : pj.TimeMark ≠ 0)
    (hgreatest : ∀ (k : ℕ) (p : E6Pos), j < k → posData[k]? = some p → p.TimeMark = 0)
    (hlast : posData.getLast? = some plast) :
    calcRemainTime posData = some (plast.TimeCode - pj.TimeCode) ∧
      (j = posData.length - 1 → plast.TimeCode.isFinite = true →
        calcRemainTime posData = some 0) := by
  have hjlt : j < posData.length := by
    by_contra hcon
    rw [List.getElem?_eq_none (by omega)] at hpj
    cases hpj
  have hloop := calcRemainLoop_mark posData j pj hj1 hpj hmark (posData.length - 1) 0
    (by omega) (by omega) (fun k p h1 _ hp => hgreatest k p h1 hp)
  have hres : calcRemainTime posData = some (plast.TimeCode - pj.TimeCode) := by
    unfold calcRemainTime
    rw [hloop, hlast]
  refine ⟨hres, ?_⟩
  intro hjl hfin
  have hpl : pj = plast := by
    rw [getLast?_eq_getElem?, ← hjl, hpj] at hlast
    exact Option.some.inj hlast
  obtain ⟨a, ha⟩ := Float64.eq_fin_of_isFinite hfin
  rw [hres, hpl, ha, Float64.sub_self_fin]

/-- C16, witness of the amended claim: `timeCode = [1, 2, 3]`,
`timeMark = [0, 0, 1]`, the last point being the checkpoint. -/
theorem C16_latest_checkpoint_witness :
    calcRemainTime [timed 1 0, timed 2 0, timed 3 1]
        = some ((timed 3 1).TimeCode - (timed 3 1).TimeCode) ∧
      (2 = [timed 1 0, timed 2 0, timed 3 1].length - 1 →
        (timed 3 1).TimeCode.isFinite = true →
        calcRemainTime [timed 1 0, timed 2 0, timed 3 1] = some 0) :=
  C16_latest_checkpoint [timed 1 0, timed 2 0, timed 3 1] 2 (timed 3 1) (timed 3 1)
    (by simp) (by norm_num) (by simp)
    (by simp [timed, Float64.fin_eq_zero_iff])
    (fun k p hk hp => by
      rw [List.getElem?_eq_none (by simp; omega)] at hp
      cases hp)
    (by simp)

/-! ## Claims on the chunks of a parsed table -/

/-- C17 (global indexing across chunks): for a table of well-formed records
and `maxSize > 0`, the table parses, and in every chunk the loop hands to
`writeTemplate` the point at position `j` of chunk `i` (both from 0) has the
index `i*maxSize + j + 1`, so `firstIndex` of chunk `i` is
`i*maxSize + 1`. -/
theorem C17_global_indexing (indefinite : Int) (parseFloat : String → Float64 × Bool)
    (trimSpace : String → String) (records : List (List String)) (spare : List E6Pos)
    (maxSize : Int) (h : ∀ r ∈ records, 8 ≤ r.length) (hlen : records.length < 2 ^ 53)
    (hpos : 0 < maxSize) (hint : maxSize < 2 ^ 63) :
    ∃ run, splineFileOnTable indefinite parseFloat trimSpace records spare maxSize = some run ∧
      ∀ (i : ℕ) (chunk : List E6Pos), run.calls[i]? = some chunk →
        firstIndex chunk = some ((i : Int) * maxSize + 1) ∧
        ∀ (j : ℕ) (p : E6Pos), chunk[j]? = some p →
          p.Index = (i : Int) * maxSize + (j : Int) + 1 := by
  obtain ⟨m, rfl⟩ := Int.eq_ofNat_of_zero_le hpos.le
  have hm : 0 < m := by omega
  have hm63 : m < 2 ^ 63 := by omega
  obtain ⟨pts, hpts, hplen, hidx⟩ := parsePoints_index parseFloat trimSpace records h
  refine ⟨splineFile indefinite { elems := pts, spare := spare } (m : Int), ?_, ?_⟩
  · unfold splineFileOnTable
    rw [hpts]
  · intro i chunk hc
    obtain ⟨hw, him⟩ := splineFile_calls_window indefinite { elems := pts, spare := spare } m
      (by simpa [hplen] using hlen) hm hm63 i chunk hc
    simp only at him
    have hpoint : ∀ (j : ℕ) (p : E6Pos), chunk[j]? = some p →
        p.Index = (i : Int) * (m : Int) + (j : Int) + 1 := by
      intro j p hp
      rw [hw] at hp
      obtain ⟨hget, _⟩ := window_getElem? pts m i j p hp
      rw [hidx _ p hget]
      push_cast
      ring
    refine ⟨?_, hpoint⟩
    have h0 : chunk[0]? = some pts[i * m] := by
      rw [hw]
      unfold window
      rw [List.getElem?_take, if_pos hm, List.getElem?_drop, Nat.add_zero,
        List.getElem?_eq_getElem him]
    unfold firstIndex
    rw [h0]
    simp only
    rw [hpoint 0 _ h0]
    simp

/-- C17, witness: a table of 3 records cut with `maxSize = 2`, in a slice of
capacity 4. -/
theorem C17_global_indexing_witness :
    ∃ run, splineFileOnTable 0 strconvParseFloat stringsTrimSpace
        [sampleRow, overflowRow, sampleRow] [{}] 2 = some run ∧
      ∀ (i : ℕ) (chunk : List E6Pos), run.calls[i]? = some chunk →
        firstIndex chunk = some ((i : Int) * 2 + 1) ∧
        ∀ (j : ℕ) (p : E6Pos), chunk[j]? = some p →
          p.Index = (i : Int) * 2 + (j : Int) + 1 :=
  C17_global_indexing 0 strconvParseFloat stringsTrimSpace [sampleRow, overflowRow, sampleRow]
    [{}] 2
    (by
      intro r hr
      simp only [List.mem_cons, List.mem_singleton, List.not_mem_nil, or_false] at hr
      rcases hr with rfl | rfl | rfl <;> decide)
    (by norm_num) (by norm_num) (by norm_num)

/-- C18 (first and last in chunk), evaluated at 5 points with the capacity 8
that `append` leaves and `maxSize = 3`: the second chunk holds the points of
index 4 and 5 and has `Total = 2`; there `last` is false on the last point
(index 5) and true on index 4, and `first` is false on the first point
(index 4) and true on index 5. -/
theorem C18_first_last_evaluated (indefinite : Int) :
    splineFile indefinite ⟨sampleTrajectory 5, List.replicate 3 {}⟩ 3
        = { calls := [(sampleTrajectory 5).take 3, (sampleTrajectory 5).drop 3]
            completed := true } ∧
      ((sampleTrajectory 5).drop 3).map E6Pos.Index = [4, 5] ∧
      ∃ d, newData ((sampleTrajectory 5).drop 3) = some d ∧ d.Total = 2 ∧
        last d 5 = some false ∧ last d 4 = some true ∧
        first d 4 = some false ∧ first d 5 = some true := by
  refine ⟨?_, ?_, ?_⟩
  · have h := splineFile_of_pos indefinite ⟨sampleTrajectory 5, List.replicate 3 {}⟩ 3
      (by simp [sampleTrajectory_length]) (by simp [sampleTrajectory_length])
      (by norm_num) (by norm_num)
    simp only [sampleTrajectory_length, List.length_replicate] at h
    rw [show ((3 : ℕ) : Int) = 3 by rfl] at h
    have hr : List.range' 0 ((5 - 1) / 3 + 1) = [0, 1] := by decide
    rw [h, if_pos (by norm_num), hr]
    simp only [List.map_cons, List.map_nil]
    rw [window_last _ 3 1 (by simp [sampleTrajectory_length])]
    simp [window]
  · decide
  · refine ⟨{ Total := 2, TotalTime := Float64.fin 4, Points := (sampleTrajectory 5).drop 3 },
      ?_, rfl, ?_, ?_, ?_, ?_⟩
    · simp [newData, sampleTrajectory, samplePoint, List.range_succ]
    all_goals decide

/-- C19 (slice bounds), evaluated at 63 points with capacity 71 and
`maxSize = 50`: iteration 1 evaluates `points[50:100]`, whose end index 100
is beyond the length 63 and beyond the capacity 71, and the slice expression
panics. -/
theorem C19_slice_bounds_evaluated :
    wrapInt64 (1 * 50) = 50 ∧ wrapInt64 (wrapInt64 (1 * 50) + 50) = 100 ∧
      (⟨sampleTrajectory 63, List.replicate 8 {}⟩ : Slice E6Pos).len = 63 ∧
      (⟨sampleTrajectory 63, List.replicate 8 {}⟩ : Slice E6Pos).cap = 71 ∧
      (⟨sampleTrajectory 63, List.replicate 8 {}⟩ : Slice E6Pos).slice 50 100 = none ∧
      chunkAt ⟨sampleTrajectory 63, List.replicate 8 {}⟩ 50 1 = none := by
  have hw1 : wrapInt64 (1 * 50) = 50 := by decide
  have hw2 : wrapInt64 (wrapInt64 (1 * 50) + 50) = 100 := by
    rw [hw1]
    decide
  have hlen : (⟨sampleTrajectory 63, List.replicate 8 {}⟩ : Slice E6Pos).len = 63 := by
    simp [Slice.len, sampleTrajectory_length]
  have hcap : (⟨sampleTrajectory 63, List.replicate 8 {}⟩ : Slice E6Pos).cap = 71 := by
    simp [Slice.cap, sampleTrajectory_length]
  have hs : (⟨sampleTrajectory 63, List.replicate 8 {}⟩ : Slice E6Pos).slice 50 100 = none := by
    unfold Slice.slice
    rw [hcap]
    simp
  have hw3 : wrapInt64 (50 + 50) = 100 := by decide
  refine ⟨hw1, hw2, hlen, hcap, hs, ?_⟩
  unfold chunkAt
  simp only [hw1, hw3, hs]

/-- C20, counterexample: the time codes `[0, +Inf]` are non-negative and
non-decreasing, and the residual is `Inf - Inf = NaN`, which is not `>= 0`. -/
theorem C20_residual_bounds_counterexample :
    (∀ p ∈ [timed 0 0, { TimeCode := Float64.posInf }], Float64.le 0 p.TimeCode = true) ∧
      List.Chain' (fun p q : E6Pos => Float64.le p.TimeCode q.TimeCode = true)
        [timed 0 0, { TimeCode := Float64.posInf }] ∧
      calcRemainTime [timed 0 0, { TimeCode := Float64.posInf }] = some Float64.nan ∧
      Float64.le 0 Float64.nan = false := by
  refine ⟨?_, ?_, ?_, rfl⟩
  · intro p hp
    simp only [List.mem_cons, List.mem_singleton, List.not_mem_nil, or_false] at hp
    rcases hp with rfl | rfl
    · simp [timed, Float64.le_zero_fin]
    · rfl
  · simp only [List.chain'_cons, List.chain'_singleton, and_true]
    rfl
  · have e : (0 : Float64) = Float64.fin 0 := rfl
    simp [calcRemainTime, calcRemainLoop, timed, e]
    rfl

/-- C20, amended: for a non-empty chunk whose time codes are finite `float64`
values, non-negative and non-decreasing along the sequence, `calcRemainTime`
returns a value `>= 0` and `<=` the time code of the last point. -/
theorem C20_residual_bounds (posData : List E6Pos) (plast : E6Pos)
    (hlast : posData.getLast? = some plast)
    (hfin : ∀ p ∈ posData, p.TimeCode.isFinite = true)
    (hval : ∀ p ∈ posData, p.TimeCode.IsValue)
    (hnn : ∀ p ∈ posData, Float64.le 0 p.TimeCode = true)
    (hmono : List.Chain' (fun p q : E6Pos => Float64.le p.TimeCode q.TimeCode = true) posData) :
    ∃ r, calcRemainTime posData = some r ∧ Float64.le 0 r = true ∧
      Float64.le r plast.TimeCode = true := by
  have hne : posData ≠ [] := by
    intro h
    rw [h] at hlast
    cases hlast
  have hpos : 0 < posData.length := List.length_pos.mpr hne
  have hlastget : posData[posData.length - 1]? = some plast := by
    rw [← getLast?_eq_getElem?]
    exact hlast
  have hlastmem : plast ∈ posData := List.mem_iff_getElem?.mpr ⟨_, hlastget⟩
  haveI : IsTrans E6Pos (fun p q : E6Pos => Float64.le p.TimeCode q.TimeCode = true) :=
    ⟨fun _ _ _ h1 h2 => Float64.le_transitive h1 h2⟩
  have hpair := List.chain'_iff_pairwise.mp hmono
  -- every point of the chunk is at most the last one
  have hle : ∀ (k : ℕ) (p : E6Pos), posData[k]? = some p →
      Float64.le p.TimeCode plast.TimeCode = true := by
    intro k p hp
    have hk : k < posData.length := by
      by_contra hcon
      rw [List.getElem?_eq_none (by omega)] at hp
      cases hp
    rcases Nat.lt_or_ge k (posData.length - 1) with hlt | hge
    · have h1 := List.pairwise_iff_getElem.mp hpair k (posData.length - 1) hk (by omega) hlt
      rw [List.getElem?_eq_getElem hk] at hp
      rw [List.getElem?_eq_getElem (by omega)] at hlastget
      rw [Option.some.inj hp, Option.some.inj hlastget] at h1
      exact h1
    · have hkeq : k = posData.length - 1 := by omega
      rw [hkeq, hlastget] at hp
      rw [← Option.some.inj hp]
      obtain ⟨a, ha⟩ := Float64.eq_fin_of_isFinite (hfin plast hlastmem)
      rw [ha, Float64.le_fin_fin]
      simp
  obtain ⟨a, ha⟩ := Float64.eq_fin_of_isFinite (hfin plast hlastmem)
  have haval : roundF64 a = a := by
    have := hval plast hlastmem
    rw [ha] at this
    exact this
  have ha0 : 0 ≤ a := by
    have := hnn plast hlastmem
    rw [ha, Float64.le_zero_fin] at this
    exact of_decide_eq_true this
  obtain ⟨r, hr, hcase⟩ := calcRemainLoop_cases posData (posData.length - 1) 0 (by omega)
  have hb : ∃ b : ℚ, r = Float64.fin b ∧ 0 ≤ b ∧ b ≤ a := by
    rcases hcase with ⟨_, hr0⟩ | ⟨k, p, _, _, hp, hrp⟩
    · exact ⟨0, hr0, le_rfl, ha0⟩
    · have hpm : p ∈ posData := List.mem_iff_getElem?.mpr ⟨_, hp⟩
      obtain ⟨b, hbq⟩ := Float64.eq_fin_of_isFinite (hfin p hpm)
      have h0 := hnn p hpm
      have h1 := hle k p hp
      rw [hbq, Float64.le_zero_fin] at h0
      rw [hbq, ha, Float64.le_fin_fin] at h1
      exact ⟨b, by rw [hrp, hbq], of_decide_eq_true h0, of_decide_eq_true h1⟩
  obtain ⟨b, hrb, hb0, hba⟩ := hb
  have hbounds := roundF64_sub_bounds hb0 hba haval
  refine ⟨Float64.fin (roundF64 (a - b)), ?_, ?_, ?_⟩
  · unfold calcRemainTime
    rw [hr, hlast]
    simp only
    rw [ha, hrb, Float64.sub_fin]
  · rw [Float64.le_zero_fin]
    exact decide_eq_true hbounds.1
  · rw [ha, Float64.le_fin_fin]
    exact decide_eq_true hbounds.2

/-- C20, witness of the amended claim: `timeCode = [1, 2, 3]` without time
marks. -/
theorem C20_residual_bounds_witness :
    ∃ r, calcRemainTime [timed 1 0, timed 2 0, timed 3 0] = some r ∧ Float64.le 0 r = true ∧
      Float64.le r (timed 3 0).TimeCode = true :=
  C20_residual_bounds [timed 1 0, timed 2 0, timed 3 0] (timed 3 0) (by simp)
    (by simp [timed, Float64.isFinite])
    (by
      intro p hp
      simp only [List.mem_cons, List.mem_singleton, List.not_mem_nil, or_false] at hp
      rcases hp with rfl | rfl | rfl
      · exact roundF64_one
      · simpa using roundF64_natCast 2 (by norm_num)
      · simpa using roundF64_natCast 3 (by norm_num))
    (by norm_num [timed, Float64.le_zero_fin])
    (by norm_num [timed, Float64.le_fin_fin])

end GoKuka
